import Mathlib

/-!
# EaseMail: the per-connection session handler of `mail.go`

A shallow embedding of the mail receiver's core (`replyCommand`, `readCommand`,
`toIPAddress`, `isSpammerAddr`, `sanitizeAddr`, `handleConn`) together with the
properties its specification states about it.

Conventions of the embedding.

* A Go `string` or `[]byte` is a `List Char`, one `Char` per byte of the wire
  (code points 0..255; an ASCII literal is the byte it denotes).  Lengths are
  therefore byte counts.
* A Go map is an association list searched with `List.lookup`.
* The connection is the list of bytes the peer delivers before the first read
  that fails, plus the ordered list of events the handler caused on it.
* Library routines (`strings`, `regexp`, `fmt`) are modelled by the functions
  of the first section; `net.LookupHost` and `path.Join` are parameters.
* Logging (`log.Println`, `DEBUG`) has no effect the properties can see and is
  left out, except for the slice expression evaluated for a log line.
-/

namespace EaseMail

/-! ## Library routines -/

/-- The byte with the given value. -/
def byte (n : Nat) : Char := Char.ofNat n

/-- Go's `asciiSpace` table: tab, line feed, vertical tab, form feed, carriage
return and space. -/
def asciiSpace (c : Char) : Bool :=
  c == '\t' || c == '\n' || c == byte 0x0B || c == byte 0x0C || c == '\r' || c == ' '

/-- UTF-8 encodings of the white-space runes of `unicode.IsSpace` that lie
outside ASCII: U+0085, U+00A0, U+1680, U+2000..U+200A, U+2028, U+2029, U+202F,
U+205F and U+3000. -/
def unicodeSpaces : List (List Char) :=
  [ [byte 0xC2, byte 0x85], [byte 0xC2, byte 0xA0], [byte 0xE1, byte 0x9A, byte 0x80],
    [byte 0xE2, byte 0x80, byte 0x80], [byte 0xE2, byte 0x80, byte 0x81],
    [byte 0xE2, byte 0x80, byte 0x82], [byte 0xE2, byte 0x80, byte 0x83],
    [byte 0xE2, byte 0x80, byte 0x84], [byte 0xE2, byte 0x80, byte 0x85],
    [byte 0xE2, byte 0x80, byte 0x86], [byte 0xE2, byte 0x80, byte 0x87],
    [byte 0xE2, byte 0x80, byte 0x88], [byte 0xE2, byte 0x80, byte 0x89],
    [byte 0xE2, byte 0x80, byte 0x8A], [byte 0xE2, byte 0x80, byte 0xA8],
    [byte 0xE2, byte 0x80, byte 0xA9], [byte 0xE2, byte 0x80, byte 0xAF],
    [byte 0xE2, byte 0x81, byte 0x9F], [byte 0xE3, byte 0x80, byte 0x80] ]

/-- Number of bytes of the white-space rune the text starts with, `0` when it
starts with none.  With `rev` the text is read backwards (it is the reversed
string), so the encodings are compared reversed. -/
def spaceWidth (rev : Bool) (s : List Char) : Nat :=
  match s with
  | [] => 0
  | c :: _ =>
    if asciiSpace c then 1
    else
      match unicodeSpaces.find? (fun u => (if rev then u.reverse else u).isPrefixOf s) with
      | some u => u.length
      | none => 0

/-- Drop leading white-space runes; the first argument bounds the number of
runes dropped and is at least the length of the text at every call. -/
def dropSpaces (rev : Bool) : Nat → List Char → List Char
  | 0, s => s
  | n + 1, s =>
    match spaceWidth rev s with
    | 0 => s
    | k => dropSpaces rev n (s.drop k)

/-- Go's `strings.TrimSpace`: remove the leading and trailing white space, as
defined by Unicode. -/
def stringsTrimSpace (s : List Char) : List Char :=
  let l := dropSpaces false s.length s
  (dropSpaces true l.length l.reverse).reverse

/-- Go's `strings.Split(s, sep)` for a separator of one byte: the pieces of `s`
between the occurrences of `sep`; always at least one piece. -/
def stringsSplit (sep : Char) : List Char → List (List Char)
  | [] => [[]]
  | c :: rest =>
    if c == sep then [] :: stringsSplit sep rest
    else
      match stringsSplit sep rest with
      | [] => [[c]]
      | piece :: pieces => (c :: piece) :: pieces

/-- Go's `strings.Join(elems, sep)` for a separator of one byte. -/
def stringsJoin (sep : Char) : List (List Char) → List Char
  | [] => []
  | [x] => x
  | x :: y :: rest => x ++ sep :: stringsJoin sep (y :: rest)

/-- Upper case of one ASCII byte; any other byte is kept. -/
def upperByte (c : Char) : Char :=
  if 'a'.toNat ≤ c.toNat ∧ c.toNat ≤ 'z'.toNat then Char.ofNat (c.toNat - 32) else c

/-- Go's `strings.ToUpper`, as far as a comparison with an ASCII key can tell:
ASCII letters are upper-cased, the two runes outside ASCII whose upper case is
an ASCII letter (U+0131 dotless i, bytes C4 B1, and U+017F long s, bytes C5 BF)
become `I` and `S`, and every other byte outside ASCII is kept (Go maps it to
bytes that are again outside ASCII). -/
def stringsToUpper : List Char → List Char
  | [] => []
  | [c] => [upperByte c]
  | c :: d :: rest =>
    if c == byte 0xC4 && d == byte 0xB1 then 'I' :: stringsToUpper rest
    else if c == byte 0xC5 && d == byte 0xBF then 'S' :: stringsToUpper rest
    else upperByte c :: stringsToUpper (d :: rest)

/-! ## Reply codes, commands and the two tables -/

/-- The source's `type ReplyCode string`. -/
abbrev ReplyCode := List Char

def ReplyServiceReady : ReplyCode := "220 mail.scwy.net Tu Mail Server".toList
def ReplyServiceClosing : ReplyCode := "221 goodbye".toList
def ReplyOkay : ReplyCode := "250 yes sir".toList
def ReplyStartMailInput : ReplyCode := "354 fill \x27er up".toList
def ReplyServiceNotAvailable : ReplyCode := "421 not at the moment".toList
def ReplyCommandNotImplemented : ReplyCode := "502 *shrugs*".toList

/-- The source's `type Command int` with its eleven `iota` constants, in
order; `CommandEhlo` is the constant `0`. -/
inductive Command where
  | CommandEhlo | CommandHelo | CommandMail | CommandRcpt | CommandData | CommandRset
  | CommandVrfy | CommandExpn | CommandHelp | CommandNoop | CommandQuit
  deriving DecidableEq, Repr

open Command

/-- The zero value of `Command`, which a failed map lookup yields. -/
def Command.zero : Command := CommandEhlo

def replyTable : List (Command × ReplyCode) :=
  [ (CommandEhlo, ReplyOkay), (CommandMail, ReplyOkay), (CommandRcpt, ReplyOkay),
    (CommandData, ReplyStartMailInput), (CommandRset, ReplyOkay), (CommandVrfy, ReplyOkay),
    (CommandExpn, ReplyCommandNotImplemented), (CommandHelp, ReplyCommandNotImplemented),
    (CommandNoop, ReplyOkay), (CommandQuit, ReplyServiceClosing) ]

def commandTable : List (List Char × Command) :=
  [ ("EHLO".toList, CommandEhlo), ("HELO".toList, CommandEhlo), ("MAIL".toList, CommandMail),
    ("RCPT".toList, CommandRcpt), ("DATA".toList, CommandData), ("RSET".toList, CommandRset),
    ("VRFY".toList, CommandVrfy), ("EXPN".toList, CommandExpn), ("HELP".toList, CommandHelp),
    ("NOOP".toList, CommandNoop), ("QUIT".toList, CommandQuit) ]

/-! ## The connection -/

/-- What the handler does on the connection, in order. -/
inductive Event where
  /-- one byte delivered by `conn.Read` -/
  | recv (b : Char)
  /-- a `conn.Read` that returned an error -/
  | recvFail
  /-- one write call with these bytes -/
  | send (bytes : List Char)
  deriving DecidableEq, Repr

/-- The connection: the bytes the peer delivers that are not read yet (the
read after the last of them fails) and the events so far. -/
structure Conn where
  /-- the text of `conn.RemoteAddr()` -/
  remoteAddr : List Char
  pending : List Char
  events : List Event
  deriving DecidableEq, Repr

/-- The source's `fmt.Fprintln(conn, reply)`: one write of the reply and a line
feed; its error is ignored by every caller. -/
def fprintln (conn : Conn) (reply : ReplyCode) : Conn :=
  { conn with events := conn.events ++ [Event.send (reply ++ ['\n'])] }

/-- The source's `replyCommand`: the reply is written to the connection and the
command is returned.  `none` stands for the run-time panic of `args[0]` on an
empty slice. -/
def replyCommand (conn : Conn) (line : List Char) : Option (Conn × Command) :=
  let line := stringsTrimSpace line
  let args := stringsSplit ' ' line
  match args.head? with
  | none => none
  | some arg0 =>
    match commandTable.lookup (stringsToUpper arg0) with
    | some cmd =>
      match replyTable.lookup cmd with
      | some reply => some (fprintln conn reply, cmd)
      | none => some (fprintln conn ReplyCommandNotImplemented, cmd)
    | none => some (fprintln conn ReplyOkay, Command.zero)

/-! ## Reading one line -/

/-- What a call of `readCommand` leaves behind: its two results (`err` is
`true` for a non-nil error), the buffer it wrote into and the connection. -/
structure ReadResult where
  n : Nat
  err : Bool
  buf : List Char
  conn : Conn
  deriving DecidableEq, Repr

/-- The `for` loop of `readCommand`, one byte per iteration.  The buffer is a
slice whose length is its capacity (`make([]byte, 1024)` in the caller), so
`cap(buf)` is `buf.length`. -/
def readCommandLoop (remoteAddr : List Char) :
    List Char → List Event → List Char → Nat → ReadResult
  | [], events, buf, _ => ⟨0, true, buf, ⟨remoteAddr, [], events ++ [Event.recvFail]⟩⟩
  | datum :: rest, events, buf, length =>
    if length < buf.length then
      if datum == '\n' then
        ⟨length + 1, false, buf.set length datum, ⟨remoteAddr, rest, events ++ [Event.recv datum]⟩⟩
      else
        readCommandLoop remoteAddr rest (events ++ [Event.recv datum]) (buf.set length datum)
          (length + 1)
    else readCommandLoop remoteAddr rest (events ++ [Event.recv datum]) buf length

/-- The source's `readCommand`. -/
def readCommand (conn : Conn) (buf : List Char) : ReadResult :=
  readCommandLoop conn.remoteAddr conn.pending conn.events buf 0

/-! ## Addresses -/

/-- The reversal loop of `toIPAddress`: `k` iterations are left, `i` is the
loop variable. -/
def reverseLoop (last : Nat) : Nat → Nat → List (List Char) → List (List Char)
  | 0, _, dots => dots
  | k + 1, i, dots =>
    reverseLoop last k (i + 1)
      ((dots.set i (dots.getD (last - i) [])).set (last - i) (dots.getD i []))

/-- The source's `toIPAddress`, on the text of the address. -/
def toIPAddress (addr : List Char) : List Char :=
  let ipAddress := (stringsSplit ':' addr).headD []
  let dots := stringsSplit '.' ipAddress
  let last := dots.length - 1
  stringsJoin '.' (reverseLoop last (dots.length / 2) 0 dots)

/-- The loop of `isSpammerAddr` over the block list; `lookupHost name` tells
whether `net.LookupHost(name)` returns without error. -/
def spammerLoop (lookupHost : List Char → Bool) (ipAddress : List Char) :
    List (List Char) → Bool
  | [] => false
  | server :: rest =>
    if lookupHost (ipAddress ++ server) then true else spammerLoop lookupHost ipAddress rest

/-- The source's `isSpammerAddr`. -/
def isSpammerAddr (lookupHost : List Char → Bool) (serverBlocklist : List (List Char))
    (addr : List Char) : Bool :=
  spammerLoop lookupHost (toIPAddress addr) serverBlocklist

def defaultAddr : List Char := "invalid@addr".toList

/-- If `s` starts with `p`, what follows. -/
def dropLiteral : List Char → List Char → Option (List Char)
  | [], s => some s
  | _ :: _, [] => none
  | p :: ps, c :: cs => if p == c then dropLiteral ps cs else none

/-- The fragment `<([^>]+)>` at the head of the text: the group's text.  The
group takes every byte up to the next `>` and needs at least one. -/
def matchBracket : List Char → Option (List Char)
  | [] => none
  | c :: rest =>
    if c == '<' then
      let body := rest.takeWhile (fun x => x != '>')
      if body.length > 0 && (rest.drop body.length).head? == some '>' then some body else none
    else none

/-- The fragment `.*<([^>]+)>`: the text taken by the greedy `.*` (any byte but
a line feed) and the group's text.  The star first tries to take one more byte
and gives it back only when the remainder cannot match. -/
def matchDotStarBracket : List Char → Option (List Char × List Char)
  | [] => none
  | c :: rest =>
    let here := (matchBracket (c :: rest)).map (fun g => ([], g))
    if c == '\n' then here
    else
      match matchDotStarBracket rest with
      | some (skipped, g) => some (c :: skipped, g)
      | none => here

/-- The alternatives of an alternation followed by the rest of the expression:
the first alternative, in order, after which the rest matches. -/
def matchAlternatives {α : Type} (next : List Char → List Char → Option α) :
    List (List Char) → List Char → Option α
  | [], _ => none
  | alt :: alts, s =>
    match (dropLiteral alt s).bind (next alt) with
    | some r => some r
    | none => matchAlternatives next alts s

/-- The whole expression `(MAIL|RCPT|Mail) (FROM|TO|From|To|from|to):.*<([^>]+)>`
at the head of the text: the match and its three groups. -/
def matchAddrHere (s : List Char) : Option (List (List Char)) :=
  matchAlternatives
    (fun verb s1 =>
      (dropLiteral [' '] s1).bind
        (matchAlternatives
          (fun word s2 =>
            (dropLiteral [':'] s2).bind (fun s3 =>
              (matchDotStarBracket s3).map (fun (skipped, g) =>
                [verb ++ ' ' :: word ++ ':' :: skipped ++ '<' :: g ++ ['>'], verb, word, g])))
          ["FROM".toList, "TO".toList, "From".toList, "To".toList, "from".toList, "to".toList]))
    ["MAIL".toList, "RCPT".toList, "Mail".toList] s

/-- The source's `re.FindAllStringSubmatch(dirty, 1)` for the expression above:
the leftmost match, if there is one. -/
def findAllStringSubmatch1 : List Char → List (List (List Char))
  | [] => []
  | c :: rest =>
    match matchAddrHere (c :: rest) with
    | some m => [m]
    | none => findAllStringSubmatch1 rest

/-- The class `[a-zA-Z0-9@]`. -/
def addrSafe (c : Char) : Bool :=
  ('a'.toNat ≤ c.toNat && c.toNat ≤ 'z'.toNat) || ('A'.toNat ≤ c.toNat && c.toNat ≤ 'Z'.toNat)
    || ('0'.toNat ≤ c.toNat && c.toNat ≤ '9'.toNat) || c == '@'

/-- The source's `re.ReplaceAllString(addr, ".")` for the expression
`[^a-zA-Z0-9@]+`; `inRun` tells that the previous byte was replaced already. -/
def replaceAllString : Bool → List Char → List Char
  | _, [] => []
  | inRun, c :: rest =>
    if addrSafe c then c :: replaceAllString false rest
    else if inRun then replaceAllString true rest
    else '.' :: replaceAllString true rest

/-- The source's `sanitizeAddr`. -/
def sanitizeAddr (dirty : List Char) : List Char :=
  let subs := findAllStringSubmatch1 dirty
  match subs.head? with
  | some sub0 =>
    if subs.length > 0 && sub0.length == 4 && (sub0.getD 3 []).length > 0 then
      replaceAllString false (sub0.getD 3 [])
    else defaultAddr
  | none => defaultAddr

/-! ## The session handler -/

/-- The package variables `handleConn` reads. -/
structure Config where
  serverBlocklist : List (List Char)
  outputDirectory : List Char
  spamDetection : Bool
  MailAlter : List Char
  /-- whether `runtime.GOOS` is `linux` -/
  onLinux : Bool

/-- What the handler meets outside the connection. -/
structure World where
  /-- whether `net.LookupHost` of this name returns without error -/
  lookupHost : List Char → Bool
  /-- the library's `path.Join` of two elements -/
  pathJoin : List Char → List Char → List Char
  /-- whether `ioutil.TempFile` returns without error -/
  tempFileOk : Bool
  /-- whether the write of the banner returns without error -/
  bannerOk : Bool
  /-- whether `output.Stat` returns without error -/
  statOk : Bool
  /-- whether `copyFileContents` returns without error -/
  copyOk : Bool
  /-- the value of `time.Now().Unix()` when the message is named -/
  now : Int

/-- The local variables of `handleConn` while the `CommandParse` loop runs;
`output` is the content of the temporary file (writes to it are taken to
succeed, the source ignores their result). -/
structure Session where
  conn : Conn
  output : List Char
  rawData : List Char
  readingData : Bool
  toAddr : List Char
  fromAddr : List Char
  deriving DecidableEq, Repr

/-- How one pass of the `CommandParse` loop ends. -/
inductive Step where
  /-- the loop goes round again -/
  | next (s : Session)
  /-- the loop is left by a `break` -/
  | done (s : Session)
  /-- a run-time panic (an index or a slice bound out of range) -/
  | fault
  deriving DecidableEq, Repr

/-- The `switch cmd` at the end of the loop body. -/
def switchCmd (s : Session) (data : List Char) : Command → Step
  | CommandMail => Step.next { s with fromAddr := sanitizeAddr data }
  | CommandRcpt => Step.next { s with toAddr := sanitizeAddr data }
  | CommandData => Step.next { s with readingData := true }
  | CommandQuit => Step.done s
  | _ => Step.next s

/-- One pass of the `CommandParse` loop. -/
def commandParseStep (s : Session) : Step :=
  let r := readCommand s.conn s.rawData
  if r.err then Step.done { s with conn := r.conn, rawData := r.buf }
  else if r.buf.length < r.n then Step.fault
  else
    let s1 : Session :=
      { s with conn := r.conn, rawData := r.buf, output := s.output ++ r.buf.take r.n }
    let dot : Option Bool := if s1.readingData then r.buf.head?.map (fun b => b == '.') else some false
    match dot with
    | none => Step.fault
    | some leave =>
      let s2 : Session := if leave then { s1 with readingData := false } else s1
      if !s2.readingData then
        let data := r.buf.take r.n
        match replyCommand s2.conn data with
        | none => Step.fault
        | some (conn, cmd) =>
          if data.length < 1 then Step.fault
          else switchCmd { s2 with conn := conn } data cmd
      else Step.next s2

/-- The `CommandParse` loop, at most `fuel` passes: `Step.next` is returned
when the passes are used up before the loop is left. -/
def commandParse : Nat → Session → Step
  | 0, s => Step.next s
  | fuel + 1, s =>
    match commandParseStep s with
    | Step.next s1 => commandParse fuel s1
    | Step.done s1 => Step.done s1
    | Step.fault => Step.fault

/-- The source's `messageNameFormat` applied to its four arguments. -/
def messageName (toAddr fromAddr remoteIP : List Char) (now : Int) : List Char :=
  toAddr ++ "--".toList ++ fromAddr ++ "--".toList ++ remoteIP ++ "--".toList
    ++ (toString now).toList ++ ".txt".toList

/-- The shell text of the voice alert; in the two literal parts a `Char` is a
character of the source text. -/
def alertCommand (fromAddr : List Char) : List Char :=
  "mplayer -really-quiet \x27http://tts.baidu.com/text2audio?lan=zh&ie=UTF-8&spd=5&text=有一封来自".toList
    ++ fromAddr ++ "的邮件\x27".toList

/-- What a call of `handleConn` leaves behind. -/
structure Result where
  conn : Conn
  /-- the bytes written to the temporary file, which is removed on return -/
  output : List Char
  toAddr : List Char
  fromAddr : List Char
  /-- the files created under the output directory: path and content -/
  files : List (List Char × List Char)
  /-- the shell texts run through `/bin/bash -c` -/
  commands : List (List Char)
  deriving DecidableEq, Repr

/-- How a call of `handleConn` ends. -/
inductive Outcome where
  | returned (r : Result)
  /-- a run-time panic -/
  | panicked
  /-- the loop did not end within the passes allowed -/
  | running
  deriving DecidableEq, Repr

/-- The part of `handleConn` after the loop. -/
def finalize (cfg : Config) (w : World) (remoteIP : List Char) (s : Session) : Result :=
  let quiet : Result := ⟨s.conn, s.output, s.toAddr, s.fromAddr, [], []⟩
  if !w.statOk then quiet
  else if s.output.length > 50 then
    let mailPath := w.pathJoin cfg.outputDirectory (messageName s.toAddr s.fromAddr remoteIP w.now)
    if !w.copyOk then quiet
    else if cfg.onLinux && cfg.MailAlter == s.toAddr then
      { quiet with files := [(mailPath, s.output)], commands := [alertCommand s.fromAddr] }
    else { quiet with files := [(mailPath, s.output)] }
  else quiet

/-- The source's `handleConn`.  Every pass of the loop that does not leave it
reads at least one byte, so one pass more than there are pending bytes is
enough. -/
def handleConn (cfg : Config) (w : World) (conn : Conn) : Outcome :=
  let quiet : Result := ⟨conn, [], defaultAddr, defaultAddr, [], []⟩
  if isSpammerAddr w.lookupHost cfg.serverBlocklist conn.remoteAddr && cfg.spamDetection then
    Outcome.returned quiet
  else if !w.tempFileOk then Outcome.returned quiet
  else
    let toAddr := defaultAddr
    let fromAddr := defaultAddr
    let remoteIP := toIPAddress conn.remoteAddr
    if !w.bannerOk then Outcome.returned quiet
    else
      let conn := { conn with events := conn.events ++ [Event.send (ReplyServiceReady ++ ['\n'])] }
      let rawData := List.replicate 1024 (byte 0)
      let readingData := false
      match commandParse (conn.pending.length + 1) ⟨conn, [], rawData, readingData, toAddr, fromAddr⟩ with
      | Step.next _ => Outcome.running
      | Step.fault => Outcome.panicked
      | Step.done s => Outcome.returned (finalize cfg w remoteIP s)

/-! ## The specification, in terms of lines -/

/-- The token `replyCommand` looks up: the first piece of the trimmed line
between single spaces, in upper case. -/
def verbToken (line : List Char) : List Char :=
  stringsToUpper ((stringsSplit ' ' (stringsTrimSpace line)).headD [])

/-- A text holds a bracketed address: a `<`, then at least one byte and no
`>`, then a `>`. -/
def Bracketed (s : List Char) : Prop :=
  ∃ pre body post, s = pre ++ '<' :: body ++ '>' :: post ∧ body ≠ [] ∧ '>' ∉ body

/-- Whether some `<` of the text starts a bracketed address. -/
def hasBracket : List Char → Bool
  | [] => false
  | c :: rest => (matchBracket (c :: rest)).isSome || hasBracket rest

/-- The lines the handler gets from a stream, with a line buffer of `cap`
bytes: each line runs up to and including its line feed; the stream yields no
further line once `cap` bytes have come without a line feed, and none for
bytes that are not followed by a line feed at all.  `cur` holds the bytes of the
line being read. -/
def linesRead (cap : Nat) : List Char → List Char → List (List Char)
  | [], _ => []
  | c :: rest, cur =>
    if cur.length < cap then
      if c == '\n' then (cur ++ [c]) :: linesRead cap rest []
      else linesRead cap rest (cur ++ [c])
    else []

/-- The verb of a line, if its token is one of the table. -/
def verbOf (line : List Char) : Option Command :=
  commandTable.lookup (verbToken line)

/-- The reply to a line in CommandMode, by the table of recognized verbs. -/
def replyOf (line : List Char) : ReplyCode :=
  match verbOf line with
  | some CommandData => "354 fill \x27er up".toList
  | some CommandExpn => "502 *shrugs*".toList
  | some CommandHelp => "502 *shrugs*".toList
  | some CommandQuit => "221 goodbye".toList
  | _ => "250 yes sir".toList

/-- The lines a session handles, each with the mode it is handled in (`true`
for CommandMode).  A session starts in CommandMode; `DATA` leads to DataMode, a
line that begins with a dot leads back to CommandMode and is handled there;
the line dispatched as `QUIT` is the last one handled. -/
def handledLines : Bool → List (List Char) → List (List Char × Bool)
  | _, [] => []
  | readingData, line :: rest =>
    if readingData && !(line.head? == some '.') then (line, false) :: handledLines true rest
    else
      match verbOf line with
      | some CommandQuit => [(line, true)]
      | some CommandData => (line, true) :: handledLines true rest
      | _ => (line, true) :: handledLines false rest

/-- Whether the last handled line is dispatched as `QUIT`. -/
def endsByQuit : List (List Char × Bool) → Bool
  | [] => false
  | [h] => h.2 && verbOf h.1 == some CommandQuit
  | _ :: h :: rest => endsByQuit (h :: rest)

/-- The events of one handled line: its bytes are read, then, in CommandMode,
its reply is written. -/
def lineEvents (h : List Char × Bool) : List Event :=
  h.1.map Event.recv ++ (if h.2 then [Event.send (replyOf h.1 ++ ['\n'])] else [])

/-- The last line dispatched in CommandMode as the given command. -/
def lastDispatched (cmd : Command) (handled : List (List Char × Bool)) : Option (List Char) :=
  ((handled.filter (fun h => h.2 && verbOf h.1 == some cmd)).map Prod.fst).getLast?

/-- The address recorded after the handled lines: the sanitized last line
dispatched as the given command, `init` when there is none. -/
def addrAfter (cmd : Command) (handled : List (List Char × Bool)) (init : List Char) :
    List Char :=
  ((lastDispatched cmd handled).map sanitizeAddr).getD init

/-- The lines a session on this connection handles. -/
def sessionLines (conn : Conn) : List (List Char × Bool) :=
  handledLines false (linesRead 1024 conn.pending [])

/-- The configuration, the world and the peer the examples run in: spam
detection on, an empty block list, every operation succeeding. -/
def exampleConfig : Config := ⟨[], "mail".toList, true, [], true⟩

def exampleWorld : World :=
  ⟨fun _ => false, fun dir name => dir ++ '/' :: name, true, true, true, true, 1530576000⟩

def examplePeer : List Char := "1.2.3.4:5678".toList

/-- The 50 bytes of two envelope lines, the line `xx` and `QUIT`. -/
def fiftyBytes : List Char :=
  "MAIL FROM:<a@x.com>\r\nRCPT TO:<b@y.com>\r\nxx\r\nQUIT\r\n".toList

/-- The same with one byte more. -/
def fiftyOneBytes : List Char :=
  "MAIL FROM:<a@x.com>\r\nRCPT TO:<b@y.com>\r\nxxx\r\nQUIT\r\n".toList

/-- The texts written on the connection, in order. -/
def sent : List Event → List (List Char)
  | [] => []
  | Event.send bytes :: rest => bytes :: sent rest
  | Event.recv _ :: rest => sent rest
  | Event.recvFail :: rest => sent rest

/-- The session of the specification's scenario. -/
def scenario : List Char :=
  "MAIL FROM:<a@x.com>\r\nRCPT TO:<b@y.com>\r\nDATA\r\nhello world\r\n.\r\nQUIT\r\n".toList

/-- The six lines of the scenario with the mode each is handled in. -/
def scenarioHandled : List (List Char × Bool) :=
  [ ("MAIL FROM:<a@x.com>\r\n".toList, true), ("RCPT TO:<b@y.com>\r\n".toList, true),
    ("DATA\r\n".toList, true), ("hello world\r\n".toList, false), (".\r\n".toList, true),
    ("QUIT\r\n".toList, true) ]

/-- The scenario with the two envelope verbs and keywords in lower case. -/
def lowerCaseSession : List Char :=
  "mail from:<a@x.com>\r\nrcpt to:<b@y.com>\r\nDATA\r\nhello world\r\n.\r\nQUIT\r\n".toList

/-- Three complete lines, 53 bytes, with no `QUIT` among them. -/
def threeLines : List Char :=
  "MAIL FROM:<a@x.com>\r\nRCPT TO:<b@y.com>\r\nhello world\r\n".toList

/-- Whether the byte occurs in the encoding of a white-space rune. -/
def spaceByte (c : Char) : Bool :=
  asciiSpace c || unicodeSpaces.any (fun u => u.contains c)

/-- A session in DataMode, with a line buffer of 32 bytes, that finds the
lines `QUIT`, `MAIL FROM:<x@y>` and the dot line pending. -/
def dataModeSession : Session :=
  ⟨⟨examplePeer, "QUIT\r\nMAIL FROM:<x@y>\r\n.\r\n".toList, []⟩, "DATA\r\n".toList,
    List.replicate 32 (byte 0), true, defaultAddr, defaultAddr⟩

/-- The same session after its first two lines, at the dot line. -/
def dotLineSession : Session :=
  ⟨⟨examplePeer, ".\r\n".toList, []⟩, "DATA\r\nQUIT\r\nMAIL FROM:<x@y>\r\n".toList,
    List.replicate 32 (byte 0), true, defaultAddr, defaultAddr⟩

/-- The line holds a match of the address expression
`(MAIL|RCPT|Mail) (FROM|TO|From|To|from|to):.*<([^>]+)>` that starts after
`pre`: one of the three verbs, a space, one of the six words, a colon, a text
`sk` without a line feed, and a group `<g>` whose text `g` is not empty and
holds no `>`. -/
def AddrMatch (line pre verb word sk g post : List Char) : Prop :=
  line = pre ++ (verb ++ ' ' :: (word ++ ':' :: (sk ++ '<' :: (g ++ '>' :: post))))
  ∧ verb ∈ ["MAIL".toList, "RCPT".toList, "Mail".toList]
  ∧ word ∈ ["FROM".toList, "TO".toList, "From".toList, "To".toList, "from".toList, "to".toList]
  ∧ '\n' ∉ sk ∧ g ≠ [] ∧ '>' ∉ g

/-! ## Properties of the command interpreter -/

theorem stringsSplit_ne_nil (sep : Char) (s : List Char) : stringsSplit sep s ≠ [] := by
  cases s with
  | nil => simp [stringsSplit]
  | cons c rest =>
    simp only [stringsSplit]
    split
    · simp
    · split <;> simp

theorem stringsSplit_head (sep : Char) (s : List Char) :
    (stringsSplit sep s).head? = some ((stringsSplit sep s).headD []) := by
  have h := stringsSplit_ne_nil sep s
  cases hs : stringsSplit sep s with
  | nil => exact absurd hs h
  | cons a l => simp

/-- The reply `replyCommand` writes and the command it returns, by the token. -/
theorem replyCommand_eq (conn : Conn) (line : List Char) :
    replyCommand conn line =
      match commandTable.lookup (verbToken line) with
      | some cmd =>
        match replyTable.lookup cmd with
        | some reply => some (fprintln conn reply, cmd)
        | none => some (fprintln conn ReplyCommandNotImplemented, cmd)
      | none => some (fprintln conn ReplyOkay, Command.zero) := by
  unfold replyCommand verbToken
  simp only [stringsSplit_head]

theorem lookup_cons_ite {α β : Type} [BEq α] [LawfulBEq α] [DecidableEq α] (a k : α) (v : β)
    (es : List (α × β)) :
    List.lookup a ((k, v) :: es) = if a = k then some v else List.lookup a es := by
  rw [List.lookup_cons]
  by_cases h : a = k
  · simp [h]
  · have : (a == k) = false := by simpa using h
    simp [this, h]

theorem commandTable_lookup (tok : List Char) :
    commandTable.lookup tok =
      if tok = "EHLO".toList then some CommandEhlo
      else if tok = "HELO".toList then some CommandEhlo
      else if tok = "MAIL".toList then some CommandMail
      else if tok = "RCPT".toList then some CommandRcpt
      else if tok = "DATA".toList then some CommandData
      else if tok = "RSET".toList then some CommandRset
      else if tok = "VRFY".toList then some CommandVrfy
      else if tok = "EXPN".toList then some CommandExpn
      else if tok = "HELP".toList then some CommandHelp
      else if tok = "NOOP".toList then some CommandNoop
      else if tok = "QUIT".toList then some CommandQuit
      else none := by
  simp only [commandTable, lookup_cons_ite, List.lookup_nil]

/-- C1: for every line, the reply written by `replyCommand` is the one the
table maps the line's token to: "250 yes sir" for EHLO, HELO, MAIL, RCPT, RSET,
VRFY and NOOP, "354 fill 'er up" for DATA, "502 *shrugs*" for EXPN and HELP,
"221 goodbye" for QUIT, and "250 yes sir" for every other token (the empty one
included); the reply is one write, ended by a line feed, and nothing else
changes on the connection. -/
theorem replyCommand_writes_mapped_reply (conn : Conn) (line : List Char) :
    let wrote (reply : List Char) : Prop :=
      (replyCommand conn line).map Prod.fst
        = some { conn with events := conn.events ++ [Event.send reply] }
    (verbToken line ∈ ["EHLO".toList, "HELO".toList, "MAIL".toList, "RCPT".toList,
        "RSET".toList, "VRFY".toList, "NOOP".toList] → wrote "250 yes sir\n".toList)
    ∧ (verbToken line = "DATA".toList → wrote "354 fill \x27er up\n".toList)
    ∧ (verbToken line ∈ ["EXPN".toList, "HELP".toList] → wrote "502 *shrugs*\n".toList)
    ∧ (verbToken line = "QUIT".toList → wrote "221 goodbye\n".toList)
    ∧ (verbToken line ∉ ["EHLO".toList, "HELO".toList, "MAIL".toList, "RCPT".toList,
        "DATA".toList, "RSET".toList, "VRFY".toList, "EXPN".toList, "HELP".toList,
        "NOOP".toList, "QUIT".toList] → wrote "250 yes sir\n".toList) := by
  intro wrote
  simp only [wrote, replyCommand_eq, commandTable_lookup]
  refine ⟨?_, ?_, ?_, ?_, ?_⟩
  · intro h
    simp only [List.mem_cons, List.mem_singleton, List.not_mem_nil, or_false] at h
    rcases h with h | h | h | h | h | h | h <;> rw [h] <;> rfl
  · intro h; rw [h]; rfl
  · intro h
    simp only [List.mem_cons, List.mem_singleton, List.not_mem_nil, or_false] at h
    rcases h with h | h <;> rw [h] <;> rfl
  · intro h; rw [h]; rfl
  · intro h
    simp only [List.mem_cons, List.mem_singleton, List.not_mem_nil, or_false, not_or] at h
    obtain ⟨h1, h2, h3, h4, h5, h6, h7, h8, h9, h10, h11⟩ := h
    simp only [h1, h2, h3, h4, h5, h6, h7, h8, h9, h10, h11, if_false]
    rfl

/-- C1 at the lines `quit`, `  Helo there` and the empty line. -/
theorem replyCommand_writes_mapped_reply_witness :
    (replyCommand ⟨[], [], []⟩ "quit\r\n".toList).map Prod.fst
        = some ⟨[], [], [Event.send "221 goodbye\n".toList]⟩
    ∧ (replyCommand ⟨[], [], []⟩ "  Helo there\r\n".toList).map Prod.fst
        = some ⟨[], [], [Event.send "250 yes sir\n".toList]⟩
    ∧ (replyCommand ⟨[], [], []⟩ "\r\n".toList).map Prod.fst
        = some ⟨[], [], [Event.send "250 yes sir\n".toList]⟩ :=
  ⟨(replyCommand_writes_mapped_reply ⟨[], [], []⟩ "quit\r\n".toList).2.2.2.1 (by decide),
   (replyCommand_writes_mapped_reply ⟨[], [], []⟩ "  Helo there\r\n".toList).1 (by decide),
   (replyCommand_writes_mapped_reply ⟨[], [], []⟩ "\r\n".toList).2.2.2.2 (by decide)⟩

/-! ## Properties of the address sanitizer -/

theorem dropLiteral_some (p s t : List Char) : dropLiteral p s = some t → s = p ++ t := by
  induction p generalizing s with
  | nil => intro h; simpa [dropLiteral] using h
  | cons a p ih =>
    cases s with
    | nil => simp [dropLiteral]
    | cons c cs =>
      simp only [dropLiteral]
      split
      · rename_i hac
        intro h
        have hac : a = c := by simpa using hac
        rw [ih cs h, hac]; rfl
      · simp

theorem dropLiteral_append (p t : List Char) : dropLiteral p (p ++ t) = some t := by
  induction p with
  | nil => simp [dropLiteral]
  | cons a p ih => simp [dropLiteral, ih]

theorem drop_length_takeWhile (p : Char → Bool) (l : List Char) :
    l.drop (l.takeWhile p).length = l.dropWhile p := by
  induction l with
  | nil => rfl
  | cons a l ih =>
    by_cases h : p a
    · simp [List.takeWhile_cons, List.dropWhile_cons, h, ih]
    · simp [List.takeWhile_cons, List.dropWhile_cons, h]

theorem matchBracket_some (s g : List Char) (h : matchBracket s = some g) :
    ∃ post, s = '<' :: g ++ '>' :: post ∧ g ≠ [] ∧ '>' ∉ g := by
  cases s with
  | nil => simp [matchBracket] at h
  | cons c rest =>
    simp only [matchBracket] at h
    split at h
    · rename_i hc
      have hc : c = '<' := by simpa using hc
      split at h
      · rename_i hb
        simp only [Bool.and_eq_true, decide_eq_true_eq, drop_length_takeWhile] at hb
        obtain ⟨hlen, hhead⟩ := hb
        have hg : rest.takeWhile (fun x => x != '>') = g := by simpa using h
        have hsplit := List.takeWhile_append_dropWhile (fun x => x != '>') rest
        cases hd : rest.dropWhile (fun x => x != '>') with
        | nil => rw [hd] at hhead; simp at hhead
        | cons d post =>
          rw [hd] at hhead hsplit
          have hd' : d = '>' := by simpa using hhead
          refine ⟨post, ?_, ?_, ?_⟩
          · rw [hc, ← hsplit, hg, hd']; rfl
          · intro hnil; rw [← hg] at hnil; rw [hnil] at hlen; simp at hlen
          · intro hmem
            rw [← hg] at hmem
            have := List.mem_takeWhile_imp hmem
            simp at this
      · simp at h
    · simp at h

theorem matchDotStarBracket_some (s sk g : List Char) (h : matchDotStarBracket s = some (sk, g)) :
    ∃ post, s = sk ++ '<' :: g ++ '>' :: post ∧ g ≠ [] ∧ '>' ∉ g := by
  induction s generalizing sk with
  | nil => simp [matchDotStarBracket] at h
  | cons c rest ih =>
    have hhere : ∀ sk, (matchBracket (c :: rest)).map (fun g => (([] : List Char), g)) = some (sk, g) →
        ∃ post, c :: rest = sk ++ '<' :: g ++ '>' :: post ∧ g ≠ [] ∧ '>' ∉ g := by
      intro sk hm
      cases hb : matchBracket (c :: rest) with
      | none => rw [hb] at hm; simp at hm
      | some g' =>
        rw [hb] at hm
        simp only [Option.map_some', Option.some.injEq, Prod.mk.injEq] at hm
        obtain ⟨hsk, hg⟩ := hm
        subst hsk; subst hg
        simpa using matchBracket_some _ _ hb
    simp only [matchDotStarBracket] at h
    split at h
    · exact hhere sk h
    · split at h
      · rename_i sk' g' hrec
        simp only [Option.some.injEq, Prod.mk.injEq] at h
        obtain ⟨hsk, hg⟩ := h
        subst hsk; subst hg
        obtain ⟨post, hp, h1, h2⟩ := ih sk' hrec
        exact ⟨post, by rw [hp]; rfl, h1, h2⟩
      · exact hhere sk h

theorem matchAlternatives_some {α : Type} (next : List Char → List Char → Option α)
    (alts : List (List Char)) (s : List Char) (r : α) (h : matchAlternatives next alts s = some r) :
    ∃ alt s1, alt ∈ alts ∧ s = alt ++ s1 ∧ next alt s1 = some r := by
  induction alts with
  | nil => simp [matchAlternatives] at h
  | cons a alts ih =>
    simp only [matchAlternatives] at h
    split at h
    · rename_i r' hr
      cases hd : dropLiteral a s with
      | none => rw [hd] at hr; simp at hr
      | some s1 =>
        rw [hd] at hr
        simp only [Option.some_bind] at hr
        refine ⟨a, s1, by simp, dropLiteral_some _ _ _ hd, ?_⟩
        rw [hr, h]
    · obtain ⟨alt, s1, hm, hs, hn⟩ := ih h
      exact ⟨alt, s1, by simp [hm], hs, hn⟩

theorem matchAddrHere_some (s : List Char) (m : List (List Char)) (h : matchAddrHere s = some m) :
    Bracketed s := by
  unfold matchAddrHere at h
  obtain ⟨verb, s1, _, hs, h1⟩ := matchAlternatives_some _ _ _ _ h
  cases hd : dropLiteral [' '] s1 with
  | none => rw [hd] at h1; simp at h1
  | some s1' =>
    rw [hd] at h1
    simp only [Option.some_bind] at h1
    obtain ⟨word, s2, _, hs2, h2⟩ := matchAlternatives_some _ _ _ _ h1
    cases hd2 : dropLiteral [':'] s2 with
    | none => rw [hd2] at h2; simp at h2
    | some s3 =>
      rw [hd2] at h2
      simp only [Option.some_bind] at h2
      cases hm : matchDotStarBracket s3 with
      | none => rw [hm] at h2; simp at h2
      | some p =>
        obtain ⟨sk, g⟩ := p
        obtain ⟨post, hp, hg1, hg2⟩ := matchDotStarBracket_some _ _ _ hm
        refine ⟨verb ++ ' ' :: word ++ ':' :: sk, g, post, ?_, hg1, hg2⟩
        rw [hs, dropLiteral_some _ _ _ hd, hs2, dropLiteral_some _ _ _ hd2, hp]
        simp

theorem findAllStringSubmatch1_nil (s : List Char) (h : ¬ Bracketed s) :
    findAllStringSubmatch1 s = [] := by
  induction s with
  | nil => rfl
  | cons c rest ih =>
    simp only [findAllStringSubmatch1]
    split
    · rename_i m hm
      exact absurd (matchAddrHere_some _ _ hm) h
    · apply ih
      rintro ⟨pre, body, post, hs, h1, h2⟩
      exact h ⟨c :: pre, body, post, by rw [hs]; rfl, h1, h2⟩

/-- C4: a line that holds no bracketed address (no `<` followed by at least
one byte other than `>` and then a `>`) is sanitized to the sentinel
`invalid@addr`; `sanitizeAddr` is a total function, it has no failing case. -/
theorem sanitizeAddr_no_bracket (line : List Char) (h : ¬ Bracketed line) :
    sanitizeAddr line = "invalid@addr".toList := by
  unfold sanitizeAddr
  rw [findAllStringSubmatch1_nil line h]
  rfl

theorem takeWhile_append_stop (p : Char → Bool) (body post : List Char) (c : Char)
    (hb : ∀ x ∈ body, p x = true) (hc : p c = false) :
    (body ++ c :: post).takeWhile p = body := by
  induction body with
  | nil => simp [List.takeWhile_cons, hc]
  | cons a body ih =>
    have ha : p a = true := hb a (by simp)
    simp only [List.cons_append, List.takeWhile_cons, ha, if_true]
    rw [ih (fun x hx => hb x (by simp [hx]))]

theorem matchBracket_append (body post : List Char) (h1 : body ≠ []) (h2 : '>' ∉ body) :
    matchBracket ('<' :: body ++ '>' :: post) = some body := by
  have htw : (body ++ '>' :: post).takeWhile (fun x => x != '>') = body :=
    takeWhile_append_stop _ body post '>'
      (fun x hx => by
        have : x ≠ '>' := fun e => h2 (e ▸ hx)
        simpa using this)
      (by simp)
  have hlen : 0 < body.length := List.length_pos.mpr h1
  simp only [matchBracket, List.cons_append, beq_self_eq_true, if_true, htw, List.drop_left,
    List.head?_cons, Bool.and_true, decide_eq_true_eq, gt_iff_lt, hlen]

theorem hasBracket_of_bracketed (s : List Char) (h : Bracketed s) : hasBracket s = true := by
  obtain ⟨pre, body, post, hs, h1, h2⟩ := h
  subst hs
  induction pre with
  | nil =>
    have := matchBracket_append body post h1 h2
    simp only [List.nil_append, List.cons_append] at this ⊢
    simp [hasBracket, this]
  | cons c pre ih =>
    simp only [List.cons_append, hasBracket, Bool.or_eq_true]
    right
    simpa using ih

/-- C4 at a line without brackets and at a line whose only group is `<>`. -/
theorem sanitizeAddr_no_bracket_witness :
    sanitizeAddr "MAIL FROM:a@x.com\r\n".toList = "invalid@addr".toList
    ∧ sanitizeAddr "RCPT TO:<>\r\n".toList = "invalid@addr".toList :=
  ⟨sanitizeAddr_no_bracket _ (fun h => absurd (hasBracket_of_bracketed _ h) (by decide)),
   sanitizeAddr_no_bracket _ (fun h => absurd (hasBracket_of_bracketed _ h) (by decide))⟩

theorem matchDotStarBracket_none (t : List Char) (h : '<' ∉ t) : matchDotStarBracket t = none := by
  induction t with
  | nil => rfl
  | cons c rest ih =>
    have hc : c ≠ '<' := fun e => h (by simp [e])
    have hr : '<' ∉ rest := fun e => h (by simp [e])
    have hb : matchBracket (c :: rest) = none := by simp [matchBracket, hc]
    simp [matchDotStarBracket, ih hr, hb]

theorem matchDotStarBracket_single (body post : List Char) (h1 : body ≠ []) (h2 : '>' ∉ body)
    (h3 : '<' ∉ body) (h4 : '<' ∉ post) :
    matchDotStarBracket ('<' :: body ++ '>' :: post) = some ([], body) := by
  have hrest : matchDotStarBracket (body ++ '>' :: post) = none :=
    matchDotStarBracket_none _ (by simp [h3, h4])
  have hb := matchBracket_append body post h1 h2
  simp only [List.cons_append] at hb ⊢
  simp [matchDotStarBracket, hrest, hb]

theorem addrSafe_ne (c d : Char) (hc : addrSafe c = true) (hd : addrSafe d = false) : c ≠ d :=
  fun e => by rw [e, hd] at hc; exact Bool.noConfusion hc

theorem replaceAllString_fixed (addr : List Char) (inRun : Bool)
    (hsafe : ∀ c ∈ addr, addrSafe c = true ∨ c = '.') (hdots : ¬ ['.', '.'] <:+: addr)
    (hrun : inRun = true → addr.head? ≠ some '.') : replaceAllString inRun addr = addr := by
  induction addr generalizing inRun with
  | nil => rfl
  | cons c rest ih =>
    have hrest : ¬ ['.', '.'] <:+: rest := fun hi => hdots (hi.trans (List.suffix_cons c rest).isInfix)
    have hs : ∀ x ∈ rest, addrSafe x = true ∨ x = '.' := fun x hx => hsafe x (by simp [hx])
    by_cases hc : addrSafe c = true
    · simp only [replaceAllString, hc, if_true]
      rw [ih false hs hrest (by simp)]
    · have hdot : c = '.' := (hsafe c (by simp)).resolve_left hc
      have hrun' : inRun = false := by
        cases inRun with
        | false => rfl
        | true => exact absurd (by simp [hdot]) (hrun rfl)
      subst hdot
      simp only [replaceAllString, hc, hrun', if_false, Bool.false_eq_true]
      rw [ih true hs hrest]
      intro _ hh
      cases rest with
      | nil => simp at hh
      | cons d rest' =>
        have hd : d = '.' := by simpa using hh
        subst hd
        exact hdots ⟨[], rest', rfl⟩

theorem sanitizeAddr_of_match (line : List Char) (m : List (List Char)) (g : List Char)
    (hne : line ≠ []) (hm : matchAddrHere line = some m) (h4 : m.length = 4)
    (hg : m.getD 3 [] = g) (hgne : g ≠ []) : sanitizeAddr line = replaceAllString false g := by
  cases line with
  | nil => exact absurd rfl hne
  | cons c rest =>
    have hpos : 0 < g.length := List.length_pos.mpr hgne
    simp only [sanitizeAddr, findAllStringSubmatch1, hm, List.head?_cons, hg, h4]
    simp [hpos]

theorem matchAddrHere_mail_from (t : List Char) :
    matchAddrHere ("MAIL FROM:".toList ++ t) =
      (matchDotStarBracket t).map (fun p =>
        ["MAIL FROM:".toList ++ p.1 ++ '<' :: p.2 ++ ['>'], "MAIL".toList, "FROM".toList, p.2]) := by
  show matchAddrHere ('M' :: 'A' :: 'I' :: 'L' :: ' ' :: 'F' :: 'R' :: 'O' :: 'M' :: ':' :: t) = _
  cases h : matchDotStarBracket t <;> simp [matchAddrHere, matchAlternatives, dropLiteral, h]

theorem matchAddrHere_rcpt_to (t : List Char) :
    matchAddrHere ("RCPT TO:".toList ++ t) =
      (matchDotStarBracket t).map (fun p =>
        ["RCPT TO:".toList ++ p.1 ++ '<' :: p.2 ++ ['>'], "RCPT".toList, "TO".toList, p.2]) := by
  show matchAddrHere ('R' :: 'C' :: 'P' :: 'T' :: ' ' :: 'T' :: 'O' :: ':' :: t) = _
  cases h : matchDotStarBracket t <;> simp [matchAddrHere, matchAlternatives, dropLiteral, h]

theorem sanitizeAddr_single_group (kw body post : List Char)
    (hkw : kw = "MAIL FROM:".toList ∨ kw = "RCPT TO:".toList) (h1 : body ≠ []) (h2 : '>' ∉ body)
    (h3 : '<' ∉ body) (h4 : '<' ∉ post) :
    sanitizeAddr (kw ++ '<' :: body ++ '>' :: post) = replaceAllString false body := by
  have hm := matchDotStarBracket_single body post h1 h2 h3 h4
  rcases hkw with hkw | hkw <;> subst hkw
  · refine sanitizeAddr_of_match _
      ["MAIL FROM:".toList ++ [] ++ '<' :: body ++ ['>'], "MAIL".toList, "FROM".toList, body]
      body (by simp) ?_ rfl rfl h1
    rw [List.append_assoc, matchAddrHere_mail_from, hm]; rfl
  · refine sanitizeAddr_of_match _
      ["RCPT TO:".toList ++ [] ++ '<' :: body ++ ['>'], "RCPT".toList, "TO".toList, body]
      body (by simp) ?_ rfl rfl h1
    rw [List.append_assoc, matchAddrHere_rcpt_to, hm]; rfl

/-- C3: an address that is not empty, is made of the bytes `[A-Za-z0-9@]` and
of single dots (no two dots in a row) comes back unchanged from `sanitizeAddr`
applied to `MAIL FROM:<addr>` or `RCPT TO:<addr>`, with or without a trailing
carriage return and line feed. -/
theorem sanitizeAddr_safe_unchanged (addr : List Char) (hne : addr ≠ [])
    (hsafe : ∀ c ∈ addr, addrSafe c = true ∨ c = '.') (hdots : ¬ ['.', '.'] <:+: addr) :
    sanitizeAddr ("MAIL FROM:<".toList ++ addr ++ ">".toList) = addr
    ∧ sanitizeAddr ("MAIL FROM:<".toList ++ addr ++ ">\r\n".toList) = addr
    ∧ sanitizeAddr ("RCPT TO:<".toList ++ addr ++ ">".toList) = addr
    ∧ sanitizeAddr ("RCPT TO:<".toList ++ addr ++ ">\r\n".toList) = addr := by
  have hgt : '>' ∉ addr := fun hm => by
    rcases hsafe _ hm with h | h
    · exact absurd h (by decide)
    · exact absurd h (by decide)
  have hlt : '<' ∉ addr := fun hm => by
    rcases hsafe _ hm with h | h
    · exact absurd h (by decide)
    · exact absurd h (by decide)
  have hfix := replaceAllString_fixed addr false hsafe hdots (by simp)
  have key : ∀ kw post, (kw = "MAIL FROM:".toList ∨ kw = "RCPT TO:".toList) → '<' ∉ post →
      sanitizeAddr (kw ++ '<' :: addr ++ '>' :: post) = addr := fun kw post hkw hp => by
    rw [sanitizeAddr_single_group kw addr post hkw hne hgt hlt hp, hfix]
  refine ⟨?_, ?_, ?_, ?_⟩
  · simpa using key "MAIL FROM:".toList [] (Or.inl rfl) (by simp)
  · simpa using key "MAIL FROM:".toList ['\r', '\n'] (Or.inl rfl) (by decide)
  · simpa using key "RCPT TO:".toList [] (Or.inr rfl) (by simp)
  · simpa using key "RCPT TO:".toList ['\r', '\n'] (Or.inr rfl) (by decide)

/-- C3 at the address `a@x.com`. -/
theorem sanitizeAddr_safe_unchanged_witness :
    sanitizeAddr "MAIL FROM:<a@x.com>".toList = "a@x.com".toList
    ∧ sanitizeAddr "MAIL FROM:<a@x.com>\r\n".toList = "a@x.com".toList
    ∧ sanitizeAddr "RCPT TO:<a@x.com>".toList = "a@x.com".toList
    ∧ sanitizeAddr "RCPT TO:<a@x.com>\r\n".toList = "a@x.com".toList :=
  sanitizeAddr_safe_unchanged "a@x.com".toList (by decide) (by decide) (by decide)

theorem not_bracketed_of_not_mem (s : List Char) (h : '<' ∉ s) : ¬ Bracketed s := by
  rintro ⟨pre, body, post, hs, _, _⟩
  apply h
  rw [hs]
  simp

/-! ## A session, line by line -/

theorem take_succ_set (buf : List Char) (n : Nat) (c : Char) (h : n < buf.length) :
    (buf.set n c).take (n + 1) = buf.take n ++ [c] := by
  induction buf generalizing n with
  | nil => simp at h
  | cons a buf ih =>
    cases n with
    | zero => simp
    | succ n =>
      simp only [List.set_cons_succ, List.take_succ_cons, List.cons_append, List.cons.injEq,
        true_and]
      exact ih n (by simpa using h)

theorem readCommandLoop_full (ra : List Char) (pending : List Char) (events : List Event)
    (buf : List Char) (length : Nat) (h : buf.length ≤ length) :
    readCommandLoop ra pending events buf length
      = ⟨0, true, buf, ⟨ra, [], events ++ pending.map Event.recv ++ [Event.recvFail]⟩⟩ := by
  induction pending generalizing events with
  | nil => simp [readCommandLoop]
  | cons c rest ih =>
    have hn : ¬ length < buf.length := Nat.not_lt.mpr h
    simp only [readCommandLoop, hn, if_false]
    rw [ih]
    simp

/-- What `readCommand` does, told by `linesRead`: when the stream yields no
line the call ends in an error with every byte read; otherwise the call
returns the next line in the buffer and leaves the rest pending. -/
theorem readCommandLoop_spec (ra : List Char) (pending : List Char) (events : List Event)
    (buf : List Char) (length : Nat) (h : length ≤ buf.length) :
    let r := readCommandLoop ra pending events buf length
    r.buf.length = buf.length ∧
    match linesRead buf.length pending (buf.take length) with
    | [] => r.n = 0 ∧ r.err = true
        ∧ r.conn = ⟨ra, [], events ++ pending.map Event.recv ++ [Event.recvFail]⟩
    | l :: ls => r.n = l.length ∧ r.err = false ∧ r.buf.take l.length = l
        ∧ ∃ consumed rest, consumed ≠ [] ∧ pending = consumed ++ rest
          ∧ l = buf.take length ++ consumed ∧ ls = linesRead buf.length rest []
          ∧ r.conn = ⟨ra, rest, events ++ consumed.map Event.recv⟩ := by
  induction pending generalizing events buf length with
  | nil => simp [readCommandLoop, linesRead]
  | cons c rest ih =>
    have hlen : (buf.take length).length = length := by simp [h]
    by_cases hlt : length < buf.length
    · by_cases hc : c = '\n'
      · subst hc
        have ht := take_succ_set buf length '\n' hlt
        simp only [readCommandLoop, linesRead, hlen, hlt, if_true, beq_self_eq_true,
          List.length_set, List.length_append, List.length_singleton, true_and]
        refine ⟨ht, ['\n'], rest, by simp, rfl, rfl, rfl, rfl⟩
      · have hc' : (c == '\n') = false := by simpa using hc
        have ht := take_succ_set buf length c hlt
        have := ih (events ++ [Event.recv c]) (buf.set length c) (length + 1)
          (by simpa using hlt)
        simp only [List.length_set, ht] at this
        simp only [readCommandLoop, linesRead, hlen, hlt, if_true, hc', if_false,
          Bool.false_eq_true]
        refine ⟨this.1, ?_⟩
        have h2 := this.2
        split at h2
        · simpa using h2
        · obtain ⟨h1, h2, h3, consumed, rest', h4, h5, h6, h7, h8⟩ := h2
          refine ⟨h1, h2, h3, c :: consumed, rest', by simp, by rw [h5]; rfl, by rw [h6]; simp,
            h7, by rw [h8]; simp⟩
    · have hfull := readCommandLoop_full ra (c :: rest) events buf length (Nat.not_lt.mp hlt)
      simp only [hfull, linesRead, hlen, hlt, if_false, true_and]

theorem lookup_mem_values {α β : Type} [BEq α] (a : α) (v : β) (l : List (α × β))
    (h : l.lookup a = some v) : v ∈ l.map Prod.snd := by
  induction l with
  | nil => simp at h
  | cons p l ih =>
    obtain ⟨k, b⟩ := p
    rw [List.lookup_cons] at h
    split at h
    · simp only [Option.some.injEq] at h
      simp [h]
    · simp [ih h]

theorem commandTable_lookup_ne_helo (tok : List Char) :
    commandTable.lookup tok ≠ some CommandHelo := fun h =>
  absurd (lookup_mem_values tok CommandHelo commandTable h) (by decide)

theorem replyCommand_spec (conn : Conn) (line : List Char) :
    replyCommand conn line
      = some (fprintln conn (replyOf line), (verbOf line).getD Command.zero) := by
  rw [replyCommand_eq]
  unfold replyOf verbOf
  have hne := commandTable_lookup_ne_helo (verbToken line)
  cases h : commandTable.lookup (verbToken line) with
  | none => rfl
  | some c =>
    rw [h] at hne
    cases c <;> first | rfl | exact absurd rfl hne

theorem commandParseStep_err (s : Session)
    (hl : linesRead s.rawData.length s.conn.pending [] = []) :
    ∃ buf, commandParseStep s = Step.done
      { s with
        conn := ⟨s.conn.remoteAddr, [],
          s.conn.events ++ s.conn.pending.map Event.recv ++ [Event.recvFail]⟩
        rawData := buf } := by
  have h := readCommandLoop_spec s.conn.remoteAddr s.conn.pending s.conn.events s.rawData 0
    (Nat.zero_le _)
  simp only [List.take_zero, hl] at h
  obtain ⟨_, _, h2, h3⟩ := h
  refine ⟨(readCommand s.conn s.rawData).buf, ?_⟩
  simp only [commandParseStep, readCommand, h2, h3, if_true]

theorem commandParseStep_line (s : Session) (l : List Char) (ls : List (List Char))
    (hl : linesRead s.rawData.length s.conn.pending [] = l :: ls) :
    ∃ buf rest, buf.length = s.rawData.length ∧ s.conn.pending = l ++ rest ∧ l ≠ []
      ∧ ls = linesRead s.rawData.length rest []
      ∧ commandParseStep s =
        if s.readingData && !(l.head? == some '.') then
          Step.next ⟨⟨s.conn.remoteAddr, rest, s.conn.events ++ l.map Event.recv⟩,
            s.output ++ l, buf, true, s.toAddr, s.fromAddr⟩
        else
          switchCmd ⟨⟨s.conn.remoteAddr, rest,
              s.conn.events ++ l.map Event.recv ++ [Event.send (replyOf l ++ ['\n'])]⟩,
            s.output ++ l, buf, false, s.toAddr, s.fromAddr⟩ l
            ((verbOf l).getD Command.zero) := by
  have h := readCommandLoop_spec s.conn.remoteAddr s.conn.pending s.conn.events s.rawData 0
    (Nat.zero_le _)
  simp only [List.take_zero, hl, List.nil_append] at h
  obtain ⟨hb, hn, herr, htake, consumed, rest, hne, hp, hc, hls, hconn⟩ := h
  subst hc
  refine ⟨(readCommand s.conn s.rawData).buf, rest, hb, hp, hne, hls, ?_⟩
  have hle : ¬ (readCommand s.conn s.rawData).buf.length < l.length := by
    have := congrArg List.length htake
    simp only [List.length_take] at this
    unfold readCommand
    omega
  have hhead : (readCommand s.conn s.rawData).buf.head? = l.head? := by
    have h1 : l.head? = ((readCommandLoop s.conn.remoteAddr s.conn.pending s.conn.events
        s.rawData 0).buf.take l.length).head? := by rw [htake]
    rw [h1]
    cases l with
    | nil => exact absurd rfl hne
    | cons a l' =>
      unfold readCommand
      cases (readCommandLoop s.conn.remoteAddr s.conn.pending s.conn.events s.rawData 0).buf <;>
        simp
  cases hl0 : l with
  | nil => exact absurd hl0 hne
  | cons a l' =>
    rw [← hl0]
    have hh : l.head? = some a := by rw [hl0]; rfl
    have hlen1 : ¬ l.length < 1 := by rw [hl0]; simp
    unfold commandParseStep
    have e1 : (readCommand s.conn s.rawData).err = false := herr
    have e2 : (readCommand s.conn s.rawData).n = l.length := hn
    have e3 : (readCommand s.conn s.rawData).buf.take l.length = l := htake
    have e4 : (readCommand s.conn s.rawData).conn
        = ⟨s.conn.remoteAddr, rest, s.conn.events ++ l.map Event.recv⟩ := hconn
    simp only [e1, e2, e3, e4, hle, hhead, hh, if_false, Bool.false_eq_true, Option.map_some']
    cases hrd : s.readingData
    · simp [replyCommand_spec, hlen1, fprintln]
    · by_cases ha : a = '.'
      · simp [replyCommand_spec, hlen1, fprintln, ha]
      · simp [ha]

theorem switchCmd_eq (s : Session) (data : List Char) (cmd : Command) :
    switchCmd s data cmd =
      if cmd = CommandQuit then Step.done s
      else Step.next
        { s with
          fromAddr := if cmd = CommandMail then sanitizeAddr data else s.fromAddr
          toAddr := if cmd = CommandRcpt then sanitizeAddr data else s.toAddr
          readingData := if cmd = CommandData then true else s.readingData } := by
  cases cmd <;> rfl

theorem verb_beq_iff (v : Option Command) (c : Command) (hc : c ≠ CommandEhlo) :
    (v == some c) = decide (v.getD Command.zero = c) := by
  cases v with
  | none =>
    have : Command.zero ≠ c := fun e => hc e.symm
    simp [this]
  | some d =>
    by_cases hd : d = c
    · simp [hd]
    · have : (d == c) = false := by simpa using hd
      simp [this, hd]

theorem handledLines_cons_data (rd : Bool) (l : List Char) (ls : List (List Char))
    (h : (rd && !(l.head? == some '.')) = true) :
    handledLines rd (l :: ls) = (l, false) :: handledLines true ls := by
  simp only [handledLines, h, if_true]

theorem handledLines_cons_cmd (rd : Bool) (l : List Char) (ls : List (List Char))
    (h : (rd && !(l.head? == some '.')) = false) :
    handledLines rd (l :: ls) =
      if (verbOf l).getD Command.zero = CommandQuit then [(l, true)]
      else (l, true) :: handledLines (decide ((verbOf l).getD Command.zero = CommandData)) ls := by
  simp only [handledLines, h, Bool.false_eq_true, if_false]
  cases verbOf l with
  | none => rfl
  | some c => cases c <;> rfl

theorem endsByQuit_cons (h : List Char × Bool) (handled : List (List Char × Bool))
    (hq : (h.2 && verbOf h.1 == some CommandQuit) = false) :
    endsByQuit (h :: handled) = endsByQuit handled := by
  cases handled with
  | nil => simp only [endsByQuit, hq]
  | cons a l => rfl

theorem addrAfter_cons (cmd : Command) (h : List Char × Bool)
    (handled : List (List Char × Bool)) (init : List Char) :
    addrAfter cmd (h :: handled) init =
      addrAfter cmd handled
        (if (h.2 && verbOf h.1 == some cmd) = true then sanitizeAddr h.1 else init) := by
  unfold addrAfter lastDispatched
  by_cases hc : (h.2 && verbOf h.1 == some cmd) = true
  · simp only [List.filter_cons, hc, if_true, List.map_cons, List.getLast?_cons]
    cases (List.map Prod.fst (List.filter (fun h => h.2 && verbOf h.1 == some cmd) handled)).getLast? <;>
      rfl
  · simp only [List.filter_cons, hc, if_false, Bool.false_eq_true]

/-- The `CommandParse` loop, told line by line: with more passes than pending
bytes the loop is left, by a `break` and never by a panic, and the session it
leaves is the one the handled lines describe. -/
theorem commandParse_spec (fuel : Nat) (s : Session) (hcap : 0 < s.rawData.length)
    (hfuel : s.conn.pending.length < fuel) :
    ∃ s' rest, commandParse fuel s = Step.done s'
      ∧ s.conn.pending
          = ((handledLines s.readingData
              (linesRead s.rawData.length s.conn.pending [])).map Prod.fst).flatten ++ rest
      ∧ s'.output = s.output ++ ((handledLines s.readingData
              (linesRead s.rawData.length s.conn.pending [])).map Prod.fst).flatten
      ∧ s'.fromAddr = addrAfter CommandMail (handledLines s.readingData
              (linesRead s.rawData.length s.conn.pending [])) s.fromAddr
      ∧ s'.toAddr = addrAfter CommandRcpt (handledLines s.readingData
              (linesRead s.rawData.length s.conn.pending [])) s.toAddr
      ∧ s'.conn.remoteAddr = s.conn.remoteAddr
      ∧ s'.conn.pending = (if endsByQuit (handledLines s.readingData
              (linesRead s.rawData.length s.conn.pending [])) then rest else [])
      ∧ s'.conn.events = s.conn.events ++ ((handledLines s.readingData
              (linesRead s.rawData.length s.conn.pending [])).map lineEvents).flatten
          ++ (if endsByQuit (handledLines s.readingData
              (linesRead s.rawData.length s.conn.pending [])) then []
              else rest.map Event.recv ++ [Event.recvFail]) := by
  induction fuel generalizing s with
  | zero => exact absurd hfuel (Nat.not_lt_zero _)
  | succ fuel ih =>
    cases hl : linesRead s.rawData.length s.conn.pending [] with
    | nil =>
      obtain ⟨buf, hstep⟩ := commandParseStep_err s hl
      refine ⟨_, s.conn.pending, by rw [commandParse, hstep], ?_⟩
      simp [handledLines, endsByQuit, addrAfter, lastDispatched]
    | cons l ls =>
      obtain ⟨buf, rest, hb, hp, hne, hls, hstep⟩ := commandParseStep_line s l ls hl
      have hlpos : 0 < l.length := List.length_pos.mpr hne
      have hrest : rest.length < fuel := by
        have := congrArg List.length hp
        simp only [List.length_append] at this
        omega
      by_cases hmode : (s.readingData && !(l.head? == some '.')) = true
      · -- a line consumed in DataMode
        rw [if_pos hmode] at hstep
        obtain ⟨s', rest', hrun, h1, h2, h3, h4, h5, h6, h7⟩ :=
          ih ⟨⟨s.conn.remoteAddr, rest, s.conn.events ++ l.map Event.recv⟩,
            s.output ++ l, buf, true, s.toAddr, s.fromAddr⟩ (by simpa [hb] using hcap) hrest
        simp only [hb, ← hls] at hrun h1 h2 h3 h4 h5 h6 h7
        have hq : (((l, false) : List Char × Bool).2 && verbOf (l, false).1 == some CommandQuit)
            = false := rfl
        refine ⟨s', rest', by rw [commandParse, hstep]; exact hrun, ?_⟩
        rw [handledLines_cons_data _ _ _ hmode, endsByQuit_cons _ _ hq, addrAfter_cons,
          addrAfter_cons]
        refine ⟨?_, ?_, ?_, ?_, h5, h6, ?_⟩
        · rw [hp, h1]; simp
        · rw [h2]; simp
        · rw [h3]; rfl
        · rw [h4]; rfl
        · rw [h7]; simp [lineEvents]
      · -- a line dispatched in CommandMode
        have hmode' : (s.readingData && !(l.head? == some '.')) = false := by
          simpa using hmode
        rw [if_neg hmode, switchCmd_eq] at hstep
        rw [handledLines_cons_cmd _ _ _ hmode']
        by_cases hquit : (verbOf l).getD Command.zero = CommandQuit
        · rw [if_pos hquit] at hstep
          rw [if_pos hquit]
          have hvq : (verbOf l == some CommandQuit) = true := by
            rw [verb_beq_iff _ _ (by decide)]; simpa using hquit
          have hvm : (verbOf l == some CommandMail) = false := by
            rw [verb_beq_iff _ _ (by decide), hquit]; rfl
          have hvr : (verbOf l == some CommandRcpt) = false := by
            rw [verb_beq_iff _ _ (by decide), hquit]; rfl
          refine ⟨_, rest, by rw [commandParse, hstep], ?_⟩
          simp [endsByQuit, hvq, hp, lineEvents, addrAfter, lastDispatched, hvm, hvr]
        · rw [if_neg hquit] at hstep
          rw [if_neg hquit]
          have hvq : (((l, true) : List Char × Bool).2 && verbOf (l, true).1 == some CommandQuit)
              = false := by
            show (true && (verbOf l == some CommandQuit)) = false
            rw [verb_beq_iff _ _ (by decide)]; simpa using hquit
          obtain ⟨s', rest', hrun, h1, h2, h3, h4, h5, h6, h7⟩ :=
            ih ⟨⟨s.conn.remoteAddr, rest,
                s.conn.events ++ l.map Event.recv ++ [Event.send (replyOf l ++ ['\n'])]⟩,
              s.output ++ l, buf,
              if (verbOf l).getD Command.zero = CommandData then true else false,
              if (verbOf l).getD Command.zero = CommandRcpt then sanitizeAddr l else s.toAddr,
              if (verbOf l).getD Command.zero = CommandMail then sanitizeAddr l else s.fromAddr⟩
              (by simpa [hb] using hcap) hrest
          simp only [hb, ← hls] at hrun h1 h2 h3 h4 h5 h6 h7
          have hrd : (if (verbOf l).getD Command.zero = CommandData then true else false)
              = decide ((verbOf l).getD Command.zero = CommandData) := by
            by_cases hd : (verbOf l).getD Command.zero = CommandData <;> simp [hd]
          rw [hrd] at hrun h1 h2 h3 h4 h6 h7
          refine ⟨s', rest', by rw [commandParse, hstep]; exact hrun, ?_⟩
          rw [endsByQuit_cons _ _ hvq, addrAfter_cons, addrAfter_cons]
          refine ⟨?_, ?_, ?_, ?_, h5, h6, ?_⟩
          · rw [hp, h1]; simp
          · rw [h2]; simp
          · rw [h3]
            simp only [Bool.true_and, verb_beq_iff _ CommandMail (by decide), decide_eq_true_eq]
          · rw [h4]
            simp only [Bool.true_and, verb_beq_iff _ CommandRcpt (by decide), decide_eq_true_eq]
          · rw [h7]; simp [lineEvents]

/-! ## Properties of the session handler -/

theorem finalize_fields (cfg : Config) (w : World) (remoteIP : List Char) (s : Session) :
    (finalize cfg w remoteIP s).conn = s.conn ∧ (finalize cfg w remoteIP s).output = s.output
    ∧ (finalize cfg w remoteIP s).toAddr = s.toAddr
    ∧ (finalize cfg w remoteIP s).fromAddr = s.fromAddr
    ∧ (finalize cfg w remoteIP s).files =
        if w.statOk && w.copyOk && decide (50 < s.output.length) then
          [(w.pathJoin cfg.outputDirectory (messageName s.toAddr s.fromAddr remoteIP w.now),
            s.output)]
        else [] := by
  unfold finalize
  cases w.statOk <;> cases w.copyOk <;> by_cases h : 50 < s.output.length <;>
    cases hl : (cfg.onLinux && cfg.MailAlter == s.toAddr) <;> simp [h, hl]

/-- A session that is not rejected and gets its temporary file and its banner
out: `handleConn` returns, and what it leaves is told by the handled lines. -/
theorem handleConn_spec (cfg : Config) (w : World) (conn : Conn)
    (hrej : (isSpammerAddr w.lookupHost cfg.serverBlocklist conn.remoteAddr
      && cfg.spamDetection) = false)
    (htmp : w.tempFileOk = true) (hban : w.bannerOk = true) :
    ∃ r rest, handleConn cfg w conn = Outcome.returned r
      ∧ conn.pending = ((sessionLines conn).map Prod.fst).flatten ++ rest
      ∧ r.output = ((sessionLines conn).map Prod.fst).flatten
      ∧ r.fromAddr = addrAfter CommandMail (sessionLines conn) defaultAddr
      ∧ r.toAddr = addrAfter CommandRcpt (sessionLines conn) defaultAddr
      ∧ r.conn.remoteAddr = conn.remoteAddr
      ∧ r.conn.pending = (if endsByQuit (sessionLines conn) then rest else [])
      ∧ r.conn.events = conn.events ++ [Event.send (ReplyServiceReady ++ ['\n'])]
          ++ ((sessionLines conn).map lineEvents).flatten
          ++ (if endsByQuit (sessionLines conn) then []
              else rest.map Event.recv ++ [Event.recvFail])
      ∧ r.files =
        if w.statOk && w.copyOk && decide (50 < r.output.length) then
          [(w.pathJoin cfg.outputDirectory
              (messageName r.toAddr r.fromAddr (toIPAddress conn.remoteAddr) w.now), r.output)]
        else [] := by
  obtain ⟨s', rest, hrun, h1, h2, h3, h4, h5, h6, h7⟩ :=
    commandParse_spec (conn.pending.length + 1)
      ⟨{ conn with events := conn.events ++ [Event.send (ReplyServiceReady ++ ['\n'])] }, [],
        List.replicate 1024 (byte 0), false, defaultAddr, defaultAddr⟩
      (by simp only [List.length_replicate]; omega) (Nat.lt_succ_self _)
  simp only [List.length_replicate, List.nil_append] at h1 h2 h3 h4 h5 h6 h7
  obtain ⟨f1, f2, f3, f4, f5⟩ := finalize_fields cfg w (toIPAddress conn.remoteAddr) s'
  refine ⟨finalize cfg w (toIPAddress conn.remoteAddr) s', rest, ?_, h1, ?_, ?_, ?_, ?_, ?_, ?_, ?_⟩
  · unfold handleConn
    simp only [hrej, htmp, hban, Bool.false_eq_true, if_false, Bool.not_true]
    rw [hrun]
  · rw [f2, h2]; rfl
  · rw [f4, h3]; rfl
  · rw [f3, h4]; rfl
  · rw [f1, h5]
  · rw [f1, h6]; rfl
  · rw [f1, h7]; rfl
  · rw [f5, f2, f3, f4]

/-- A session that is rejected, or gets no temporary file, or cannot write
its banner: `handleConn` returns at once. -/
theorem handleConn_early (cfg : Config) (w : World) (conn : Conn)
    (h : (isSpammerAddr w.lookupHost cfg.serverBlocklist conn.remoteAddr
        && cfg.spamDetection) = true ∨ w.tempFileOk = false ∨ w.bannerOk = false) :
    handleConn cfg w conn = Outcome.returned ⟨conn, [], defaultAddr, defaultAddr, [], []⟩ := by
  unfold handleConn
  by_cases h1 : (isSpammerAddr w.lookupHost cfg.serverBlocklist conn.remoteAddr
        && cfg.spamDetection) = true
  · simp only [h1, if_true]
  · by_cases h2 : w.tempFileOk = false
    · simp only [h1, h2, if_false, Bool.not_false, if_true, Bool.false_eq_true]
    · have h3 : w.bannerOk = false := by
        rcases h with h | h | h
        · exact absurd h h1
        · exact absurd h h2
        · exact h
      have h2' : w.tempFileOk = true := by simpa using h2
      simp only [h1, h2', h3, if_false, Bool.not_true, Bool.not_false, if_true,
        Bool.false_eq_true]

/-- C9: when the remote address is reported blocked and spam detection is on,
the handler returns with the connection untouched, whatever the peer sends: no
event at all (no banner, no reply, no byte read, every pending byte still
pending) and no file and no command. -/
theorem handleConn_blocked_silent (cfg : Config) (w : World) (conn : Conn)
    (hblocked : isSpammerAddr w.lookupHost cfg.serverBlocklist conn.remoteAddr = true)
    (hspam : cfg.spamDetection = true) :
    ∃ r, handleConn cfg w conn = Outcome.returned r
      ∧ r.conn.events = conn.events ∧ r.conn.pending = conn.pending
      ∧ r.output = [] ∧ r.files = [] ∧ r.commands = [] :=
  ⟨_, handleConn_early cfg w conn (Or.inl (by rw [hblocked, hspam]; rfl)), rfl, rfl, rfl, rfl, rfl⟩

/-- C9 at a peer listed in the zone `.bl.example`, on a fresh connection. -/
theorem handleConn_blocked_silent_witness :
    ∃ r, handleConn ⟨[".bl.example".toList], "mail".toList, true, [], true⟩
          { exampleWorld with lookupHost := fun name => name == "4.3.2.1.bl.example".toList }
          ⟨examplePeer, "MAIL FROM:<a@x.com>\r\nQUIT\r\n".toList, []⟩ = Outcome.returned r
      ∧ r.conn.events = [] ∧ r.conn.pending = "MAIL FROM:<a@x.com>\r\nQUIT\r\n".toList
      ∧ r.output = [] ∧ r.files = [] ∧ r.commands = [] :=
  handleConn_blocked_silent _ _ _ (by decide) rfl

/-- C5: in a session that is not rejected and meets no storage error, the
temporary file is copied to a message file exactly when more than 50 bytes
were appended to it, and then to one file only; the bytes appended are those
of the handled lines, so a peer that delivers at most 50 bytes (one that sends
only `QUIT`, say, or hangs up) leaves no file. -/
theorem handleConn_persists_iff_over_50 (cfg : Config) (w : World) (conn : Conn)
    (hrej : (isSpammerAddr w.lookupHost cfg.serverBlocklist conn.remoteAddr
      && cfg.spamDetection) = false)
    (htmp : w.tempFileOk = true) (hstat : w.statOk = true) (hcopy : w.copyOk = true) :
    ∃ r, handleConn cfg w conn = Outcome.returned r
      ∧ r.output = (if w.bannerOk then ((sessionLines conn).map Prod.fst).flatten else [])
      ∧ (r.output.length ≤ 50 → r.files = [])
      ∧ (50 < r.output.length → ∃ path, r.files = [(path, r.output)])
      ∧ (conn.pending.length ≤ 50 → r.files = []) := by
  cases hban : w.bannerOk with
  | false =>
    refine ⟨_, handleConn_early cfg w conn (Or.inr (Or.inr hban)), rfl, fun _ => rfl, ?_,
      fun _ => rfl⟩
    intro h
    exact absurd h (by simp)
  | true =>
    obtain ⟨r, rest, hr, h1, h2, _, _, _, _, _, hf⟩ := handleConn_spec cfg w conn hrej htmp hban
    simp only [hstat, hcopy, Bool.true_and] at hf
    refine ⟨r, hr, by rw [h2]; rfl, ?_, ?_, ?_⟩
    · intro h
      rw [hf, if_neg (by simpa using h)]
    · intro h
      exact ⟨_, by rw [hf, if_pos (by simpa using h)]⟩
    · intro h
      have hlen : r.output.length ≤ conn.pending.length := by
        rw [h1, ← h2]; simp
      rw [hf, if_neg (by simp; omega)]

/-- C5 at a session of exactly 50 bytes (no file), at one of 51 bytes (one
file), and at the sessions `QUIT` and `QUIT` cut off before its line feed (no
file). -/
theorem handleConn_persists_iff_over_50_witness :
    (∃ r, handleConn exampleConfig exampleWorld ⟨examplePeer, fiftyBytes, []⟩
        = Outcome.returned r ∧ r.output.length = 50 ∧ r.files = [])
    ∧ (∃ r, handleConn exampleConfig exampleWorld ⟨examplePeer, fiftyOneBytes, []⟩
        = Outcome.returned r ∧ r.output.length = 51 ∧ r.files.length = 1)
    ∧ (∃ r, handleConn exampleConfig exampleWorld ⟨examplePeer, "QUIT\r\n".toList, []⟩
        = Outcome.returned r ∧ r.files = [])
    ∧ (∃ r, handleConn exampleConfig exampleWorld ⟨examplePeer, "QUIT\r".toList, []⟩
        = Outcome.returned r ∧ r.files = []) := by
  refine ⟨?_, ?_, ?_, ?_⟩
  · obtain ⟨r, hr, ho, h1, _, _⟩ := handleConn_persists_iff_over_50 exampleConfig exampleWorld
      ⟨examplePeer, fiftyBytes, []⟩ rfl rfl rfl rfl
    have hlen : r.output.length = 50 := by rw [ho]; decide
    exact ⟨r, hr, hlen, h1 (by omega)⟩
  · obtain ⟨r, hr, ho, _, h2, _⟩ := handleConn_persists_iff_over_50 exampleConfig exampleWorld
      ⟨examplePeer, fiftyOneBytes, []⟩ rfl rfl rfl rfl
    have hlen : r.output.length = 51 := by rw [ho]; decide
    obtain ⟨p, hp⟩ := h2 (by omega)
    exact ⟨r, hr, hlen, by rw [hp]; rfl⟩
  · obtain ⟨r, hr, _, _, _, h3⟩ := handleConn_persists_iff_over_50 exampleConfig exampleWorld
      ⟨examplePeer, "QUIT\r\n".toList, []⟩ rfl rfl rfl rfl
    exact ⟨r, hr, h3 (by decide)⟩
  · obtain ⟨r, hr, _, _, _, h3⟩ := handleConn_persists_iff_over_50 exampleConfig exampleWorld
      ⟨examplePeer, "QUIT\r".toList, []⟩ rfl rfl rfl rfl
    exact ⟨r, hr, h3 (by decide)⟩

theorem handledLines_initial (rd : Bool) (lines : List (List Char)) :
    (handledLines rd lines).map Prod.fst <+: lines := by
  induction lines generalizing rd with
  | nil => simp [handledLines]
  | cons l ls ih =>
    by_cases hmode : (rd && !(l.head? == some '.')) = true
    · rw [handledLines_cons_data _ _ _ hmode]
      simpa using ih true
    · rw [handledLines_cons_cmd _ _ _ (by simpa using hmode)]
      split
      · exact ⟨ls, rfl⟩
      · simpa using ih _

theorem handledLines_all (rd : Bool) (lines : List (List Char))
    (h : endsByQuit (handledLines rd lines) = false) :
    (handledLines rd lines).map Prod.fst = lines := by
  induction lines generalizing rd with
  | nil => simp [handledLines]
  | cons l ls ih =>
    by_cases hmode : (rd && !(l.head? == some '.')) = true
    · rw [handledLines_cons_data _ _ _ hmode] at h ⊢
      have hq0 : (((l, false) : List Char × Bool).2 && verbOf (l, false).1 == some CommandQuit)
          = false := rfl
      rw [endsByQuit_cons _ _ hq0] at h
      simp [ih true h]
    · rw [handledLines_cons_cmd _ _ _ (by simpa using hmode)] at h ⊢
      by_cases hq : (verbOf l).getD Command.zero = CommandQuit
      · rw [if_pos hq] at h
        have hvq : (verbOf l == some CommandQuit) = true := by
          rw [verb_beq_iff _ _ (by decide)]; simpa using hq
        simp [endsByQuit, hvq] at h
      · rw [if_neg hq] at h ⊢
        have hvq : (((l, true) : List Char × Bool).2 && verbOf (l, true).1 == some CommandQuit)
            = false := by
          show (true && (verbOf l == some CommandQuit)) = false
          rw [verb_beq_iff _ _ (by decide)]; simpa using hq
        rw [endsByQuit_cons _ _ hvq] at h
        simp [ih _ h]

theorem mem_dropLast_cons {α : Type} (a x : α) (l : List α) (h : x ∈ (a :: l).dropLast) :
    x = a ∨ x ∈ l.dropLast := by
  cases l with
  | nil => simp at h
  | cons b l =>
    rw [List.dropLast_cons₂] at h
    simpa using h

theorem handledLines_first_quit (rd : Bool) (lines : List (List Char)) :
    ∀ h ∈ (handledLines rd lines).dropLast, (h.2 && verbOf h.1 == some CommandQuit) = false := by
  induction lines generalizing rd with
  | nil => simp [handledLines]
  | cons l ls ih =>
    intro x hx
    by_cases hmode : (rd && !(l.head? == some '.')) = true
    · rw [handledLines_cons_data _ _ _ hmode] at hx
      rcases mem_dropLast_cons _ _ _ hx with h | h
      · rw [h]; rfl
      · exact ih true x h
    · rw [handledLines_cons_cmd _ _ _ (by simpa using hmode)] at hx
      by_cases hq : (verbOf l).getD Command.zero = CommandQuit
      · rw [if_pos hq] at hx
        simp at hx
      · rw [if_neg hq] at hx
        rcases mem_dropLast_cons _ _ _ hx with h | h
        · rw [h]
          show (true && (verbOf l == some CommandQuit)) = false
          rw [verb_beq_iff _ _ (by decide)]; simpa using hq
        · exact ih _ x h

/-- C6: the content of a persisted file is the concatenation, in order and
byte for byte, of the lines the session handled.  These lines are an initial
run of the lines read from the peer, so the content is an initial part of the
peer's bytes; no handled line but the last is dispatched as `QUIT`; and when
the session does not end by `QUIT` every line read is handled. -/
theorem handleConn_file_is_transcript (cfg : Config) (w : World) (conn : Conn) :
    ∃ r, handleConn cfg w conn = Outcome.returned r ∧ ∀ f ∈ r.files,
      f.2 = ((sessionLines conn).map Prod.fst).flatten
      ∧ f.2 <+: conn.pending
      ∧ (sessionLines conn).map Prod.fst <+: linesRead 1024 conn.pending []
      ∧ (∀ h ∈ (sessionLines conn).dropLast, (h.2 && verbOf h.1 == some CommandQuit) = false)
      ∧ (endsByQuit (sessionLines conn) = false →
          (sessionLines conn).map Prod.fst = linesRead 1024 conn.pending []) := by
  by_cases hgo : (isSpammerAddr w.lookupHost cfg.serverBlocklist conn.remoteAddr
      && cfg.spamDetection) = false ∧ w.tempFileOk = true ∧ w.bannerOk = true
  · obtain ⟨hrej, htmp, hban⟩ := hgo
    obtain ⟨r, rest, hr, h1, h2, _, _, _, _, _, hf⟩ := handleConn_spec cfg w conn hrej htmp hban
    refine ⟨r, hr, ?_⟩
    intro f hfm
    rw [hf] at hfm
    split at hfm
    · simp only [List.mem_singleton] at hfm
      subst hfm
      exact ⟨h2, ⟨rest, by rw [h2, ← h1]⟩, handledLines_initial _ _,
        handledLines_first_quit _ _, handledLines_all _ _⟩
    · simp at hfm
  · refine ⟨_, handleConn_early cfg w conn ?_, ?_⟩
    · by_cases h1 : (isSpammerAddr w.lookupHost cfg.serverBlocklist conn.remoteAddr
          && cfg.spamDetection) = true
      · exact Or.inl h1
      · by_cases h2 : w.tempFileOk = false
        · exact Or.inr (Or.inl h2)
        · refine Or.inr (Or.inr ?_)
          by_contra h3
          exact hgo ⟨by simpa using h1, by simpa using h2, by simpa using h3⟩
    · intro f hfm
      simp at hfm

theorem handleConn_total (cfg : Config) (w : World) (conn : Conn)
    (hno : ¬ ((isSpammerAddr w.lookupHost cfg.serverBlocklist conn.remoteAddr
      && cfg.spamDetection) = false ∧ w.tempFileOk = true ∧ w.bannerOk = true)) :
    handleConn cfg w conn = Outcome.returned ⟨conn, [], defaultAddr, defaultAddr, [], []⟩ := by
  apply handleConn_early
  by_cases h1 : (isSpammerAddr w.lookupHost cfg.serverBlocklist conn.remoteAddr
      && cfg.spamDetection) = true
  · exact Or.inl h1
  · by_cases h2 : w.tempFileOk = false
    · exact Or.inr (Or.inl h2)
    · refine Or.inr (Or.inr ?_)
      by_contra h3
      exact hno ⟨by simpa using h1, by simpa using h2, by simpa using h3⟩

/-- C7: the file name of a persisted session is built from the two recorded
addresses; the sender is the sanitized last line dispatched as `MAIL` in
CommandMode and the recipient the sanitized last line dispatched as `RCPT` in
CommandMode, each `invalid@addr` when there is no such line.  One pass of the
loop over a line consumed in DataMode, or dispatched as another verb, leaves
the address as it was. -/
theorem handleConn_envelope_addresses (cfg : Config) (w : World) (conn : Conn) :
    (∃ r, handleConn cfg w conn = Outcome.returned r ∧ ∀ f ∈ r.files,
      f.1 = w.pathJoin cfg.outputDirectory
          (messageName r.toAddr r.fromAddr (toIPAddress conn.remoteAddr) w.now)
      ∧ r.fromAddr = (match lastDispatched CommandMail (sessionLines conn) with
          | some line => sanitizeAddr line
          | none => "invalid@addr".toList)
      ∧ r.toAddr = (match lastDispatched CommandRcpt (sessionLines conn) with
          | some line => sanitizeAddr line
          | none => "invalid@addr".toList))
    ∧ (∀ (s s' : Session) (l : List Char) (ls : List (List Char)),
        linesRead s.rawData.length s.conn.pending [] = l :: ls →
        (commandParseStep s = Step.next s' ∨ commandParseStep s = Step.done s') →
        (((s.readingData && !(l.head? == some '.')) = true ∨ verbOf l ≠ some CommandMail) →
          s'.fromAddr = s.fromAddr)
        ∧ (((s.readingData && !(l.head? == some '.')) = true ∨ verbOf l ≠ some CommandRcpt) →
          s'.toAddr = s.toAddr)) := by
  constructor
  · by_cases hgo : (isSpammerAddr w.lookupHost cfg.serverBlocklist conn.remoteAddr
        && cfg.spamDetection) = false ∧ w.tempFileOk = true ∧ w.bannerOk = true
    · obtain ⟨hrej, htmp, hban⟩ := hgo
      obtain ⟨r, rest, hr, _, _, h3, h4, _, _, _, hf⟩ := handleConn_spec cfg w conn hrej htmp hban
      refine ⟨r, hr, ?_⟩
      intro f hfm
      rw [hf] at hfm
      split at hfm
      · simp only [List.mem_singleton] at hfm
        subst hfm
        refine ⟨rfl, ?_, ?_⟩
        · rw [h3]; unfold addrAfter
          cases lastDispatched CommandMail (sessionLines conn) <;> rfl
        · rw [h4]; unfold addrAfter
          cases lastDispatched CommandRcpt (sessionLines conn) <;> rfl
      · simp at hfm
    · refine ⟨_, handleConn_total cfg w conn hgo, ?_⟩
      intro f hfm
      simp at hfm
  · intro s s' l ls hl hstep
    obtain ⟨buf, rest, _, _, _, _, heq⟩ := commandParseStep_line s l ls hl
    rw [heq] at hstep
    by_cases hmode : (s.readingData && !(l.head? == some '.')) = true
    · rw [if_pos hmode] at hstep
      rcases hstep with h | h
      · simp only [Step.next.injEq] at h
        subst h
        exact ⟨fun _ => rfl, fun _ => rfl⟩
      · exact Step.noConfusion h
    · rw [if_neg hmode, switchCmd_eq] at hstep
      have hm : verbOf l ≠ some CommandMail → (verbOf l).getD Command.zero ≠ CommandMail := by
        intro hv hc
        have := verb_beq_iff (verbOf l) CommandMail (by decide)
        rw [hc] at this
        exact hv (by simpa using this)
      have hr : verbOf l ≠ some CommandRcpt → (verbOf l).getD Command.zero ≠ CommandRcpt := by
        intro hv hc
        have := verb_beq_iff (verbOf l) CommandRcpt (by decide)
        rw [hc] at this
        exact hv (by simpa using this)
      by_cases hq : (verbOf l).getD Command.zero = CommandQuit
      · rw [if_pos hq] at hstep
        rcases hstep with h | h
        · exact Step.noConfusion h
        · simp only [Step.done.injEq] at h
          subst h
          exact ⟨fun _ => rfl, fun _ => rfl⟩
      · rw [if_neg hq] at hstep
        rcases hstep with h | h
        · simp only [Step.next.injEq] at h
          subst h
          refine ⟨fun hc => ?_, fun hc => ?_⟩
          · rcases hc with hc | hc
            · exact absurd hc hmode
            · simp only [if_neg (hm hc)]
          · rcases hc with hc | hc
            · exact absurd hc hmode
            · simp only [if_neg (hr hc)]
        · exact Step.noConfusion h

theorem sent_append (a b : List Event) : sent (a ++ b) = sent a ++ sent b := by
  induction a with
  | nil => rfl
  | cons e a ih => cases e <;> simp [sent, ih]

theorem sent_recv (l : List Char) : sent (l.map Event.recv) = [] := by
  induction l with
  | nil => rfl
  | cons c l ih => simpa [sent] using ih

theorem sent_lineEvents (handled : List (List Char × Bool)) :
    sent (handled.map lineEvents).flatten
      = (handled.filter Prod.snd).map (fun h => replyOf h.1 ++ ['\n']) := by
  induction handled with
  | nil => rfl
  | cons h handled ih =>
    obtain ⟨l, m⟩ := h
    cases m <;> simp [lineEvents, sent_append, sent_recv, sent, ih]

theorem replyOf_one_line (line : List Char) : '\n' ∉ replyOf line := by
  unfold replyOf
  split <;> decide

/-- C10: in a session that is not rejected the first event on the connection
is the write of the banner `220 mail.scwy.net Tu Mail Server`, before any byte
is read; after it come, line by line, the bytes of a handled line and then, for
a line handled in CommandMode only, the write of its one-line reply; what
follows the last handled line holds no write.  So the texts written are the
banner and one reply for each line handled in CommandMode.  (A session that
gets no temporary file, or whose banner cannot be written, ends with no event
at all.) -/
theorem handleConn_banner_then_replies (cfg : Config) (w : World) (conn : Conn)
    (hrej : (isSpammerAddr w.lookupHost cfg.serverBlocklist conn.remoteAddr
      && cfg.spamDetection) = false) :
    ∃ (r : Result) (rest : List Char), handleConn cfg w conn = Outcome.returned r
      ∧ ((w.tempFileOk = false ∨ w.bannerOk = false) →
          r.conn.events = conn.events ∧ r.conn.pending = conn.pending)
      ∧ (w.tempFileOk = true → w.bannerOk = true →
          r.conn.events = conn.events
            ++ Event.send "220 mail.scwy.net Tu Mail Server\n".toList
              :: (((sessionLines conn).map lineEvents).flatten
                ++ (if endsByQuit (sessionLines conn) then []
                    else rest.map Event.recv ++ [Event.recvFail]))
          ∧ sent (r.conn.events.drop conn.events.length)
              = "220 mail.scwy.net Tu Mail Server\n".toList
                :: ((sessionLines conn).filter Prod.snd).map (fun h => replyOf h.1 ++ ['\n'])
          ∧ (sent (r.conn.events.drop conn.events.length)).length
              = 1 + ((sessionLines conn).filter Prod.snd).length)
      ∧ (∀ line, '\n' ∉ replyOf line) := by
  by_cases hgo : w.tempFileOk = true ∧ w.bannerOk = true
  · obtain ⟨htmp, hban⟩ := hgo
    obtain ⟨r, rest, hr, _, _, _, _, _, _, h7, _⟩ := handleConn_spec cfg w conn hrej htmp hban
    have hev : r.conn.events = conn.events
        ++ Event.send "220 mail.scwy.net Tu Mail Server\n".toList
          :: (((sessionLines conn).map lineEvents).flatten
            ++ (if endsByQuit (sessionLines conn) then []
                else rest.map Event.recv ++ [Event.recvFail])) := by
      rw [h7]
      have hb : ReplyServiceReady ++ ['\n'] = "220 mail.scwy.net Tu Mail Server\n".toList := by
        decide
      rw [hb]
      simp
    have hsent : sent (r.conn.events.drop conn.events.length)
        = "220 mail.scwy.net Tu Mail Server\n".toList
          :: ((sessionLines conn).filter Prod.snd).map (fun h => replyOf h.1 ++ ['\n']) := by
      rw [hev, List.drop_left]
      simp only [sent, sent_append, sent_lineEvents]
      split
      · simp [sent]
      · simp [sent_append, sent_recv, sent]
    refine ⟨r, rest, hr, ?_, fun _ _ => ⟨hev, hsent, ?_⟩, replyOf_one_line⟩
    · intro h
      rcases h with h | h
      · rw [htmp] at h; exact Bool.noConfusion h
      · rw [hban] at h; exact Bool.noConfusion h
    · rw [hsent]
      simp
      omega
  · have hbad : w.tempFileOk = false ∨ w.bannerOk = false := by
      by_cases h2 : w.tempFileOk = false
      · exact Or.inl h2
      · refine Or.inr ?_
        by_contra h3
        exact hgo ⟨by simpa using h2, by simpa using h3⟩
    refine ⟨_, [], handleConn_early cfg w conn (Or.inr hbad), fun _ => ⟨rfl, rfl⟩, ?_,
      replyOf_one_line⟩
    intro h1 h2
    exact absurd ⟨h1, h2⟩ hgo

theorem scenario_lines (addr : List Char) :
    sessionLines ⟨addr, scenario, []⟩ = scenarioHandled := by
  show handledLines false (linesRead 1024 scenario []) = _
  decide

/-- C10 at the scenario: the first event is the write of the banner and the
texts written are the banner and the five replies. -/
theorem handleConn_banner_then_replies_witness :
    ∃ (r : Result) (tail : List Event),
      handleConn exampleConfig exampleWorld ⟨examplePeer, scenario, []⟩ = Outcome.returned r
      ∧ r.conn.events = Event.send "220 mail.scwy.net Tu Mail Server\n".toList :: tail
      ∧ sent r.conn.events =
          [ "220 mail.scwy.net Tu Mail Server\n".toList, "250 yes sir\n".toList,
            "250 yes sir\n".toList, "354 fill \x27er up\n".toList, "250 yes sir\n".toList,
            "221 goodbye\n".toList ] := by
  obtain ⟨r, rest, hr, _, h, _⟩ :=
    handleConn_banner_then_replies exampleConfig exampleWorld ⟨examplePeer, scenario, []⟩ rfl
  obtain ⟨hev, hsent, _⟩ := h rfl rfl
  rw [scenario_lines] at hev hsent
  refine ⟨r, _, hr, hev, ?_⟩
  have : sent r.conn.events = sent (r.conn.events.drop 0) := rfl
  rw [this]
  exact hsent.trans (by decide)

/-- C2: the scenario session (peer not rejected, no storage or banner error):
the handler writes the 220 banner, reads the `MAIL` line and writes 250, reads
the `RCPT` line and writes 250, reads `DATA` and writes 354, reads the body
line and writes nothing, reads the dot line and writes 250, reads `QUIT` and
writes 221, and returns with nothing left unread; it persists one file, named
`b@y.com--a@x.com--` then the address text, `--`, the time and `.txt`, whose
content is the 68 bytes of the six lines. -/
theorem handleConn_scenario (cfg : Config) (w : World) (addr : List Char)
    (hrej : (isSpammerAddr w.lookupHost cfg.serverBlocklist addr && cfg.spamDetection) = false)
    (htmp : w.tempFileOk = true) (hban : w.bannerOk = true) (hstat : w.statOk = true)
    (hcopy : w.copyOk = true) :
    ∃ r, handleConn cfg w ⟨addr, scenario, []⟩ = Outcome.returned r
      ∧ r.conn.events =
          [Event.send "220 mail.scwy.net Tu Mail Server\n".toList]
          ++ "MAIL FROM:<a@x.com>\r\n".toList.map Event.recv
          ++ [Event.send "250 yes sir\n".toList]
          ++ "RCPT TO:<b@y.com>\r\n".toList.map Event.recv
          ++ [Event.send "250 yes sir\n".toList]
          ++ "DATA\r\n".toList.map Event.recv
          ++ [Event.send "354 fill \x27er up\n".toList]
          ++ "hello world\r\n".toList.map Event.recv
          ++ ".\r\n".toList.map Event.recv
          ++ [Event.send "250 yes sir\n".toList]
          ++ "QUIT\r\n".toList.map Event.recv
          ++ [Event.send "221 goodbye\n".toList]
      ∧ r.conn.pending = []
      ∧ r.files =
          [(w.pathJoin cfg.outputDirectory
              ("b@y.com--a@x.com--".toList ++ toIPAddress addr ++ "--".toList
                ++ (toString w.now).toList ++ ".txt".toList), scenario)]
      ∧ scenario.length = 68 := by
  obtain ⟨r, rest, hr, h1, h2, h3, h4, _, h6, h7, hf⟩ :=
    handleConn_spec cfg w ⟨addr, scenario, []⟩ hrej htmp hban
  rw [scenario_lines] at h1 h2 h3 h4 h6 h7
  have hflat : (List.map Prod.fst scenarioHandled).flatten = scenario := by decide
  have hq : endsByQuit scenarioHandled = true := by decide
  rw [hflat] at h1 h2
  rw [if_pos hq] at h6 h7
  have hrest : rest = [] := by
    have : scenario ++ [] = scenario ++ rest := by simpa using h1
    exact (List.append_cancel_left this).symm
  have hto : r.toAddr = "b@y.com".toList := by rw [h4]; decide
  have hfrom : r.fromAddr = "a@x.com".toList := by rw [h3]; decide
  refine ⟨r, hr, ?_, ?_, ?_, by decide⟩
  · rw [h7]
    show [] ++ [Event.send (ReplyServiceReady ++ ['\n'])]
      ++ (List.map lineEvents scenarioHandled).flatten ++ [] = _
    decide
  · rw [h6, hrest]
  · rw [hf, h2, hto, hfrom, hstat, hcopy]
    rfl

/-- C2 at the peer `1.2.3.4:5678`. -/
theorem handleConn_scenario_witness :
    ∃ r, handleConn exampleConfig exampleWorld ⟨examplePeer, scenario, []⟩ = Outcome.returned r
      ∧ sent r.conn.events =
          [ "220 mail.scwy.net Tu Mail Server\n".toList, "250 yes sir\n".toList,
            "250 yes sir\n".toList, "354 fill \x27er up\n".toList, "250 yes sir\n".toList,
            "221 goodbye\n".toList ]
      ∧ r.files = [("mail/b@y.com--a@x.com--4.3.2.1--1530576000.txt".toList, scenario)] := by
  obtain ⟨r, hr, he, _, hf, _⟩ :=
    handleConn_scenario exampleConfig exampleWorld examplePeer rfl rfl rfl rfl rfl
  refine ⟨r, hr, ?_, ?_⟩
  · rw [he]; decide
  · rw [hf]; decide

theorem stringsSplit_no_sep (sep : Char) (x : List Char) (h : sep ∉ x) :
    stringsSplit sep x = [x] := by
  induction x with
  | nil => rfl
  | cons c x ih =>
    have hc : (c == sep) = false := by
      have : c ≠ sep := fun e => h (by simp [e])
      simpa using this
    simp only [stringsSplit, hc, Bool.false_eq_true, if_false]
    rw [ih (fun hx => h (by simp [hx]))]

theorem stringsSplit_append (sep : Char) (x rest : List Char) (h : sep ∉ x) :
    stringsSplit sep (x ++ sep :: rest) = x :: stringsSplit sep rest := by
  induction x with
  | nil => simp [stringsSplit]
  | cons c x ih =>
    have hc : (c == sep) = false := by
      have : c ≠ sep := fun e => h (by simp [e])
      simpa using this
    have ih' := ih (fun hx => h (by simp [hx]))
    show stringsSplit sep (c :: (x ++ sep :: rest)) = _
    simp only [stringsSplit, hc, Bool.false_eq_true, if_false, ih']

/-- The address text `a.b.c.d:port` gives `d.c.b.a`. -/
theorem toIPAddress_quad (a b c d port : List Char)
    (ha : '.' ∉ a ∧ ':' ∉ a) (hb : '.' ∉ b ∧ ':' ∉ b) (hc : '.' ∉ c ∧ ':' ∉ c)
    (hd : '.' ∉ d ∧ ':' ∉ d) :
    toIPAddress (a ++ '.' :: b ++ '.' :: c ++ '.' :: d ++ ':' :: port)
      = d ++ '.' :: c ++ '.' :: b ++ '.' :: a := by
  have hcolon : ':' ∉ a ++ '.' :: b ++ '.' :: c ++ '.' :: d := by
    simp [ha.2, hb.2, hc.2, hd.2]
  have h1 : stringsSplit ':' (a ++ '.' :: b ++ '.' :: c ++ '.' :: d ++ ':' :: port)
      = (a ++ '.' :: b ++ '.' :: c ++ '.' :: d) :: stringsSplit ':' port := by
    have := stringsSplit_append ':' (a ++ '.' :: b ++ '.' :: c ++ '.' :: d) port hcolon
    simpa using this
  have h2 : stringsSplit '.' (a ++ '.' :: b ++ '.' :: c ++ '.' :: d) = [a, b, c, d] := by
    have e : a ++ '.' :: b ++ '.' :: c ++ '.' :: d = a ++ '.' :: (b ++ '.' :: (c ++ '.' :: d)) := by
      simp
    rw [e, stringsSplit_append _ _ _ ha.1, stringsSplit_append _ _ _ hb.1,
      stringsSplit_append _ _ _ hc.1, stringsSplit_no_sep _ _ hd.1]
  unfold toIPAddress
  simp only [h1, List.headD_cons, h2]
  simp [reverseLoop, stringsJoin]

/-- The file of the scenario session for the example peer. -/
theorem scenario_file :
    ∃ r, handleConn exampleConfig exampleWorld ⟨examplePeer, scenario, []⟩ = Outcome.returned r
      ∧ r.files = [("mail/b@y.com--a@x.com--4.3.2.1--1530576000.txt".toList, scenario)] := by
  obtain ⟨r, rest, hr, _, h2, h3, h4, _, _, _, hf⟩ :=
    handleConn_spec exampleConfig exampleWorld ⟨examplePeer, scenario, []⟩ rfl rfl rfl
  rw [scenario_lines] at h2 h3 h4
  have hflat : (List.map Prod.fst scenarioHandled).flatten = scenario := by decide
  rw [hflat] at h2
  have hto : r.toAddr = "b@y.com".toList := by rw [h4]; decide
  have hfrom : r.fromAddr = "a@x.com".toList := by rw [h3]; decide
  refine ⟨r, hr, ?_⟩
  rw [hf, h2, hto, hfrom]
  decide

/-- C8 fails as stated: the session of the scenario from the peer
`1.2.3.4:5678` is persisted under a name that holds `4.3.2.1`, not the peer's
address `1.2.3.4`. -/
theorem handleConn_file_name_reversed_ip :
    ∃ r, handleConn exampleConfig exampleWorld ⟨"1.2.3.4:5678".toList, scenario, []⟩
        = Outcome.returned r
      ∧ r.files.map Prod.fst = ["mail/b@y.com--a@x.com--4.3.2.1--1530576000.txt".toList]
      ∧ r.files.map Prod.fst ≠ ["mail/b@y.com--a@x.com--1.2.3.4--1530576000.txt".toList] := by
  obtain ⟨r, hr, hf⟩ := scenario_file
  refine ⟨r, hr, ?_, ?_⟩
  · rw [hf]; rfl
  · rw [hf]; decide

/-- C8, amended: a persisted session whose peer address is `a.b.c.d:port` is
copied to the path that `path.Join` makes of the output directory and the name
`<to>--<from>--<remoteIP>--<unixSeconds>.txt`, where `<remoteIP>` is the value
of `toIPAddress`, the reversed quad `d.c.b.a`. -/
theorem handleConn_file_name (cfg : Config) (w : World) (conn : Conn)
    (a b c d port : List Char)
    (ha : '.' ∉ a ∧ ':' ∉ a) (hb : '.' ∉ b ∧ ':' ∉ b) (hc : '.' ∉ c ∧ ':' ∉ c)
    (hd : '.' ∉ d ∧ ':' ∉ d)
    (haddr : conn.remoteAddr = a ++ '.' :: b ++ '.' :: c ++ '.' :: d ++ ':' :: port) :
    ∃ r, handleConn cfg w conn = Outcome.returned r ∧ ∀ f ∈ r.files,
      f.1 = w.pathJoin cfg.outputDirectory
        (r.toAddr ++ "--".toList ++ r.fromAddr ++ "--".toList
          ++ (d ++ '.' :: c ++ '.' :: b ++ '.' :: a) ++ "--".toList
          ++ (toString w.now).toList ++ ".txt".toList) := by
  by_cases hgo : (isSpammerAddr w.lookupHost cfg.serverBlocklist conn.remoteAddr
      && cfg.spamDetection) = false ∧ w.tempFileOk = true ∧ w.bannerOk = true
  · obtain ⟨hrej, htmp, hban⟩ := hgo
    obtain ⟨r, rest, hr, _, _, _, _, _, _, _, hf⟩ := handleConn_spec cfg w conn hrej htmp hban
    refine ⟨r, hr, ?_⟩
    intro f hfm
    rw [hf] at hfm
    split at hfm
    · simp only [List.mem_singleton] at hfm
      subst hfm
      rw [haddr, toIPAddress_quad a b c d port ha hb hc hd]
      rfl
    · simp at hfm
  · refine ⟨_, handleConn_total cfg w conn hgo, ?_⟩
    intro f hfm
    simp at hfm

/-- C8, amended, at the scenario session from the peer `1.2.3.4:5678`. -/
theorem handleConn_file_name_witness :
    ∃ r, handleConn exampleConfig exampleWorld ⟨"1.2.3.4:5678".toList, scenario, []⟩
        = Outcome.returned r ∧ ∀ f ∈ r.files,
      f.1 = exampleWorld.pathJoin exampleConfig.outputDirectory
        (r.toAddr ++ "--".toList ++ r.fromAddr ++ "--".toList
          ++ ("4".toList ++ '.' :: "3".toList ++ '.' :: "2".toList ++ '.' :: "1".toList)
          ++ "--".toList ++ (toString exampleWorld.now).toList ++ ".txt".toList) :=
  handleConn_file_name exampleConfig exampleWorld ⟨"1.2.3.4:5678".toList, scenario, []⟩
    "1".toList "2".toList "3".toList "4".toList "5678".toList
    (by decide) (by decide) (by decide) (by decide) (by decide)

/-! ## The block list -/

theorem spammerLoop_iff (lookupHost : List Char → Bool) (ip : List Char)
    (blocklist : List (List Char)) :
    spammerLoop lookupHost ip blocklist = true
      ↔ ∃ server ∈ blocklist, lookupHost (ip ++ server) = true := by
  induction blocklist with
  | nil => simp [spammerLoop]
  | cons server rest ih =>
    by_cases h : lookupHost (ip ++ server) = true
    · simp [spammerLoop, h]
    · simp [spammerLoop, h, ih]

/-- C16: with `lookupHost` telling which names resolve, `isSpammerAddr` is
true exactly when some suffix of the block list makes the reversed address
followed by the suffix resolve; a name that does not resolve only counts as
not listed (the result is a plain boolean, there is no error to surface), so
an empty block list, or a resolver that fails on every name, gives false. -/
theorem isSpammerAddr_iff (lookupHost : List Char → Bool) (serverBlocklist : List (List Char))
    (addr : List Char) :
    (isSpammerAddr lookupHost serverBlocklist addr = true
      ↔ ∃ server ∈ serverBlocklist, lookupHost (toIPAddress addr ++ server) = true)
    ∧ isSpammerAddr lookupHost [] addr = false
    ∧ isSpammerAddr (fun _ => false) serverBlocklist addr = false := by
  refine ⟨spammerLoop_iff _ _ _, rfl, ?_⟩
  cases h : isSpammerAddr (fun _ => false) serverBlocklist addr with
  | false => rfl
  | true =>
    obtain ⟨_, _, hs⟩ := (spammerLoop_iff _ _ _).mp h
    exact Bool.noConfusion hs

/-! ## The two tables -/

theorem lookup_mem_keys {α β : Type} [BEq α] [LawfulBEq α] [BEq β] [LawfulBEq β] (a : α) (v : β)
    (l : List (α × β)) (h : l.lookup a = some v) :
    a ∈ (l.filter (fun p => p.2 == v)).map Prod.fst := by
  induction l with
  | nil => simp at h
  | cons p l ih =>
    obtain ⟨k, b⟩ := p
    rw [List.lookup_cons] at h
    split at h
    · rename_i hk
      simp only [Option.some.injEq] at h
      have hk' : a = k := by simpa using hk
      simp [List.filter_cons, h, hk']
    · have := ih h
      rw [List.filter_cons]
      split
      · simp only [List.map_cons, List.mem_cons]
        exact Or.inr this
      · exact this

theorem replyTable_lookup_some (cmd : Command) (h : cmd ≠ CommandHelo) :
    ∃ reply, replyTable.lookup cmd = some reply := by
  cases cmd
  case CommandHelo => exact absurd rfl h
  all_goals exact ⟨_, rfl⟩

/-- C20: every command that a lookup in `commandTable` yields has an entry in
`replyTable`, so `replyCommand` never takes the branch that answers a verb
without a reply; its reply is the table's, and it is `502 *shrugs*` only for
the tokens `EXPN` and `HELP`. -/
theorem commandTable_values_have_reply (tok : List Char) (conn : Conn) (line : List Char) :
    (∀ cmd, commandTable.lookup tok = some cmd → ∃ reply, replyTable.lookup cmd = some reply)
    ∧ (∀ cmd, commandTable.lookup (verbToken line) = some cmd →
        ∃ reply, replyTable.lookup cmd = some reply
          ∧ replyCommand conn line = some (fprintln conn reply, cmd))
    ∧ ((replyCommand conn line).map Prod.fst = some (fprintln conn "502 *shrugs*".toList) →
        verbToken line = "EXPN".toList ∨ verbToken line = "HELP".toList) := by
  have h1 : ∀ t cmd, commandTable.lookup t = some cmd →
      ∃ reply, replyTable.lookup cmd = some reply := fun t cmd h =>
    replyTable_lookup_some cmd (fun e => commandTable_lookup_ne_helo t (e ▸ h))
  refine ⟨h1 tok, ?_, ?_⟩
  · intro cmd h
    obtain ⟨reply, hr⟩ := h1 _ cmd h
    refine ⟨reply, hr, ?_⟩
    rw [replyCommand_eq, h]
    simp only [hr]
  · intro h
    rw [replyCommand_spec] at h
    simp only [Option.map_some', Option.some.injEq, fprintln, Conn.mk.injEq, true_and,
      List.append_cancel_left_eq, List.cons.injEq, and_true, Event.send.injEq] at h
    have hreply : replyOf line = "502 *shrugs*".toList := List.append_cancel_right h
    unfold replyOf at hreply
    have key : ∀ c, verbOf line = some c → c = CommandExpn ∨ c = CommandHelp →
        verbToken line = "EXPN".toList ∨ verbToken line = "HELP".toList := by
      intro c hc hor
      have hm := lookup_mem_keys (verbToken line) c commandTable hc
      rcases hor with e | e <;> subst e
      · have : (commandTable.filter (fun p => p.2 == CommandExpn)).map Prod.fst
            = ["EXPN".toList] := by decide
        rw [this] at hm
        exact Or.inl (by simpa using hm)
      · have : (commandTable.filter (fun p => p.2 == CommandHelp)).map Prod.fst
            = ["HELP".toList] := by decide
        rw [this] at hm
        exact Or.inr (by simpa using hm)
    cases hv : verbOf line with
    | none => rw [hv] at hreply; exact absurd hreply (by decide)
    | some c =>
      rw [hv] at hreply
      cases c
      case CommandExpn => exact key _ hv (Or.inl rfl)
      case CommandHelp => exact key _ hv (Or.inr rfl)
      all_goals exact absurd hreply (by decide)

/-! ## The shape of a sanitized address -/

theorem matchAddrHere_shape (s : List Char) (m : List (List Char)) (h : matchAddrHere s = some m) :
    ∃ whole verb word pre g post, m = [whole, verb, word, g]
      ∧ s = pre ++ '<' :: g ++ '>' :: post ∧ g ≠ [] ∧ '>' ∉ g := by
  unfold matchAddrHere at h
  obtain ⟨verb, s1, _, hs, h1⟩ := matchAlternatives_some _ _ _ _ h
  cases hd : dropLiteral [' '] s1 with
  | none => rw [hd] at h1; simp at h1
  | some s1' =>
    rw [hd] at h1
    simp only [Option.some_bind] at h1
    obtain ⟨word, s2, _, hs2, h2⟩ := matchAlternatives_some _ _ _ _ h1
    cases hd2 : dropLiteral [':'] s2 with
    | none => rw [hd2] at h2; simp at h2
    | some s3 =>
      rw [hd2] at h2
      simp only [Option.some_bind] at h2
      cases hm : matchDotStarBracket s3 with
      | none => rw [hm] at h2; simp at h2
      | some p =>
        obtain ⟨sk, g⟩ := p
        rw [hm] at h2
        simp only [Option.map_some', Option.some.injEq] at h2
        obtain ⟨post, hp, hg1, hg2⟩ := matchDotStarBracket_some _ _ _ hm
        refine ⟨_, verb, word, verb ++ ' ' :: word ++ ':' :: sk, g, post, h2.symm, ?_, hg1, hg2⟩
        rw [hs, dropLiteral_some _ _ _ hd, hs2, dropLiteral_some _ _ _ hd2, hp]
        simp

theorem findAllStringSubmatch1_cases (s : List Char) :
    findAllStringSubmatch1 s = []
      ∨ ∃ pre suf m, s = pre ++ suf ∧ matchAddrHere suf = some m
          ∧ findAllStringSubmatch1 s = [m] := by
  induction s with
  | nil => exact Or.inl rfl
  | cons c rest ih =>
    cases hm : matchAddrHere (c :: rest) with
    | some m =>
      exact Or.inr ⟨[], c :: rest, m, rfl, hm, by simp only [findAllStringSubmatch1, hm]⟩
    | none =>
      rcases ih with h | ⟨pre, suf, m, h1, h2, h3⟩
      · exact Or.inl (by simp only [findAllStringSubmatch1, hm, h])
      · exact Or.inr ⟨c :: pre, suf, m, by rw [h1]; rfl, h2,
          by simp only [findAllStringSubmatch1, hm, h3]⟩

/-- What `sanitizeAddr` returns: the sentinel, or the rewritten text of a
bracket group of the line. -/
theorem sanitizeAddr_cases (line : List Char) :
    sanitizeAddr line = defaultAddr
      ∨ ∃ pre g post, line = pre ++ '<' :: g ++ '>' :: post ∧ g ≠ [] ∧ '>' ∉ g
          ∧ sanitizeAddr line = replaceAllString false g := by
  rcases findAllStringSubmatch1_cases line with h | ⟨pre, suf, m, h1, h2, h3⟩
  · left
    unfold sanitizeAddr
    rw [h]; rfl
  · right
    obtain ⟨whole, verb, word, pre', g, post, hm, hs, hg1, hg2⟩ := matchAddrHere_shape _ _ h2
    refine ⟨pre ++ pre', g, post, by rw [h1, hs]; simp, hg1, hg2, ?_⟩
    have hpos : 0 < g.length := List.length_pos.mpr hg1
    unfold sanitizeAddr
    rw [h3, hm]
    simp [hpos]

theorem replaceAllString_chars (g : List Char) (inRun : Bool) :
    ∀ c ∈ replaceAllString inRun g, addrSafe c = true ∨ c = '.' := by
  induction g generalizing inRun with
  | nil => simp [replaceAllString]
  | cons a g ih =>
    intro c hc
    simp only [replaceAllString] at hc
    split at hc
    · rename_i ha
      rcases List.mem_cons.mp hc with e | e
      · exact Or.inl (e ▸ ha)
      · exact ih false c e
    · split at hc
      · exact ih true c hc
      · rcases List.mem_cons.mp hc with e | e
        · exact Or.inr e
        · exact ih true c e

theorem replaceAllString_dots (g : List Char) (inRun : Bool) :
    ¬ ['.', '.'] <:+: replaceAllString inRun g
      ∧ (inRun = true → (replaceAllString inRun g).head? ≠ some '.') := by
  induction g generalizing inRun with
  | nil =>
    simp only [replaceAllString]
    exact ⟨fun h => by simpa using List.eq_nil_of_infix_nil h, fun _ => by simp⟩
  | cons a g ih =>
    simp only [replaceAllString]
    split
    · rename_i ha
      have hne : a ≠ '.' := fun e => by rw [e] at ha; exact absurd ha (by decide)
      refine ⟨fun h => ?_, fun _ => by simpa using hne⟩
      rcases List.infix_cons_iff.mp h with hp | hi
      · obtain ⟨t, ht⟩ := hp
        simp only [List.cons_append, List.cons.injEq] at ht
        exact hne ht.1.symm
      · exact (ih false).1 hi
    · split
      · rename_i hrun
        subst hrun
        exact ih true
      · rename_i hrun
        refine ⟨fun h => ?_, fun e => absurd e hrun⟩
        rcases List.infix_cons_iff.mp h with hp | hi
        · obtain ⟨t, ht⟩ := hp
          simp only [List.cons_append, List.cons.injEq, true_and, List.nil_append] at ht
          refine (ih true).2 rfl ?_
          rw [← ht]; rfl
        · exact (ih true).1 hi

theorem replaceAllString_ne_nil (g : List Char) (h : g ≠ []) : replaceAllString false g ≠ [] := by
  cases g with
  | nil => exact absurd rfl h
  | cons a g =>
    simp only [replaceAllString]
    split <;> simp

theorem replaceAllString_run_tail (u rest : List Char) (hu : ∀ c ∈ u, addrSafe c = false)
    (hrest : ∀ c, rest.head? = some c → addrSafe c = true) :
    replaceAllString true (u ++ rest) = replaceAllString false rest := by
  induction u with
  | nil =>
    cases rest with
    | nil => rfl
    | cons c rest =>
      have hc := hrest c rfl
      simp only [List.nil_append, replaceAllString, hc, if_true]
  | cons a u ih =>
    have ha : addrSafe a = false := hu a (by simp)
    simp only [List.cons_append, replaceAllString, ha, Bool.false_eq_true, if_false, if_true]
    exact ih (fun c hc => hu c (by simp [hc]))

theorem replaceAllString_run (a u rest : List Char) (ha : ∀ c ∈ a, addrSafe c = true)
    (hne : u ≠ []) (hu : ∀ c ∈ u, addrSafe c = false)
    (hrest : ∀ c, rest.head? = some c → addrSafe c = true) :
    replaceAllString false (a ++ u ++ rest) = a ++ '.' :: replaceAllString false rest := by
  induction a with
  | nil =>
    cases u with
    | nil => exact absurd rfl hne
    | cons c u =>
      have hc : addrSafe c = false := hu c (by simp)
      simp only [List.nil_append, List.cons_append, replaceAllString, hc, Bool.false_eq_true,
        if_false]
      exact congrArg _ (replaceAllString_run_tail u rest (fun x hx => hu x (by simp [hx])) hrest)
  | cons c a ih =>
    have hc : addrSafe c = true := ha c (by simp)
    simp only [List.cons_append, replaceAllString, hc, if_true]
    exact congrArg _ (ih (fun x hx => ha x (by simp [hx])))

theorem append_cons_unique (c : Char) (a b x y : List Char) (h : a ++ c :: x = b ++ c :: y)
    (ha : c ∉ a) (hb : c ∉ b) : a = b ∧ x = y := by
  have h1 := takeWhile_append_stop (fun z => z != c) a x c
    (fun z hz => by
      have : z ≠ c := fun e => ha (e ▸ hz)
      simpa using this)
    (by simp)
  have h2 := takeWhile_append_stop (fun z => z != c) b y c
    (fun z hz => by
      have : z ≠ c := fun e => hb (e ▸ hz)
      simpa using this)
    (by simp)
  rw [h, h2] at h1
  subst h1
  exact ⟨rfl, by simpa using h⟩

theorem matchDotStarBracket_no_newline (s sk g : List Char)
    (h : matchDotStarBracket s = some (sk, g)) : '\n' ∉ sk := by
  induction s generalizing sk with
  | nil => simp [matchDotStarBracket] at h
  | cons c rest ih =>
    have hhere : (matchBracket (c :: rest)).map (fun g => (([] : List Char), g)) = some (sk, g) →
        '\n' ∉ sk := by
      intro hm
      cases hb : matchBracket (c :: rest) with
      | none => rw [hb] at hm; simp at hm
      | some g' =>
        rw [hb] at hm
        simp only [Option.map_some', Option.some.injEq, Prod.mk.injEq] at hm
        rw [← hm.1]
        simp
    simp only [matchDotStarBracket] at h
    split at h
    · exact hhere h
    · rename_i hc
      have hcn : c ≠ '\n' := by simpa using hc
      split at h
      · rename_i sk' g' hrec
        simp only [Option.some.injEq, Prod.mk.injEq] at h
        rw [← h.1]
        intro hm
        rcases List.mem_cons.mp hm with e | e
        · exact hcn e.symm
        · exact ih sk' (h.2 ▸ hrec) e
      · exact hhere h

theorem matchDotStarBracket_complete (sk g post : List Char) (hnl : '\n' ∉ sk) (h1 : g ≠ [])
    (h2 : '>' ∉ g) :
    ∃ sk' g', matchDotStarBracket (sk ++ '<' :: (g ++ '>' :: post)) = some (sk', g')
      ∧ sk.length ≤ sk'.length := by
  induction sk with
  | nil =>
    have hb : matchBracket ('<' :: (g ++ '>' :: post)) = some g := by
      have := matchBracket_append g post h1 h2
      simpa using this
    have hlt : ('<' == '\n') = false := by decide
    cases hrec : matchDotStarBracket (g ++ '>' :: post) with
    | none =>
      refine ⟨[], g, ?_, Nat.le_refl _⟩
      simp only [List.nil_append, matchDotStarBracket, hlt, Bool.false_eq_true, if_false, hrec,
        hb, Option.map_some']
    | some p =>
      obtain ⟨sk'', g''⟩ := p
      refine ⟨'<' :: sk'', g'', ?_, Nat.zero_le _⟩
      simp only [List.nil_append, matchDotStarBracket, hlt, Bool.false_eq_true, if_false, hrec]
  | cons c sk ih =>
    have hc : (c == '\n') = false := by
      have : c ≠ '\n' := fun e => hnl (by simp [e])
      simpa using this
    obtain ⟨sk', g', hrec, hle⟩ := ih (fun hm => hnl (by simp [hm]))
    refine ⟨c :: sk', g', ?_, by simpa using hle⟩
    show matchDotStarBracket (c :: (sk ++ '<' :: (g ++ '>' :: post))) = _
    simp only [matchDotStarBracket, hc, Bool.false_eq_true, if_false, hrec]

theorem matchAlternatives_complete {α : Type} (next : List Char → List Char → Option α)
    (alts : List (List Char)) (alt s1 : List Char) (r : α) (hmem : alt ∈ alts)
    (hnext : next alt s1 = some r) : ∃ r', matchAlternatives next alts (alt ++ s1) = some r' := by
  induction alts with
  | nil => simp at hmem
  | cons a alts ih =>
    simp only [matchAlternatives]
    split
    · rename_i r' _
      exact ⟨r', rfl⟩
    · rename_i hnone
      rcases List.mem_cons.mp hmem with e | e
      · subst e
        rw [dropLiteral_append, Option.some_bind, hnext] at hnone
        exact Option.noConfusion hnone
      · exact ih e

theorem matchAddrHere_sound (s : List Char) (m : List (List Char)) (h : matchAddrHere s = some m) :
    ∃ verb word sk g post, AddrMatch s [] verb word sk g post ∧ m.length = 4
      ∧ m.getD 3 [] = g
      ∧ matchDotStarBracket (sk ++ '<' :: (g ++ '>' :: post)) = some (sk, g) := by
  unfold matchAddrHere at h
  obtain ⟨verb, s1, hv, hs, h1⟩ := matchAlternatives_some _ _ _ _ h
  cases hd : dropLiteral [' '] s1 with
  | none => rw [hd] at h1; simp at h1
  | some s1' =>
    rw [hd] at h1
    simp only [Option.some_bind] at h1
    obtain ⟨word, s2, hw, hs2, h2⟩ := matchAlternatives_some _ _ _ _ h1
    cases hd2 : dropLiteral [':'] s2 with
    | none => rw [hd2] at h2; simp at h2
    | some s3 =>
      rw [hd2] at h2
      simp only [Option.some_bind] at h2
      cases hm : matchDotStarBracket s3 with
      | none => rw [hm] at h2; simp at h2
      | some p =>
        obtain ⟨sk, g⟩ := p
        rw [hm] at h2
        simp only [Option.map_some', Option.some.injEq] at h2
        obtain ⟨post, hp, hg1, hg2⟩ := matchDotStarBracket_some _ _ _ hm
        have hp' : s3 = sk ++ '<' :: (g ++ '>' :: post) := by simpa using hp
        refine ⟨verb, word, sk, g, post, ⟨?_, hv, hw, matchDotStarBracket_no_newline _ _ _ hm,
          hg1, hg2⟩, by rw [← h2]; rfl, by rw [← h2]; rfl, by rw [← hp']; exact hm⟩
        rw [hs, dropLiteral_some _ _ _ hd, hs2, dropLiteral_some _ _ _ hd2, hp']
        simp

theorem matchAddrHere_complete (s verb word sk g post : List Char)
    (h : AddrMatch s [] verb word sk g post) : ∃ m, matchAddrHere s = some m := by
  obtain ⟨hs, hv, hw, hnl, h1, h2⟩ := h
  obtain ⟨sk', g', hdsb, _⟩ := matchDotStarBracket_complete sk g post hnl h1 h2
  rw [hs, List.nil_append]
  unfold matchAddrHere
  obtain ⟨r, hr⟩ := matchAlternatives_complete
    (fun word s2 =>
      (dropLiteral [':'] s2).bind (fun s3 =>
        (matchDotStarBracket s3).map (fun (skipped, g) =>
          [verb ++ ' ' :: word ++ ':' :: skipped ++ '<' :: g ++ ['>'], verb, word, g])))
    ["FROM".toList, "TO".toList, "From".toList, "To".toList, "from".toList, "to".toList]
    word (':' :: (sk ++ '<' :: (g ++ '>' :: post)))
    [verb ++ ' ' :: word ++ ':' :: sk' ++ '<' :: g' ++ ['>'], verb, word, g'] hw
    (by
      have hd : dropLiteral [':'] (':' :: (sk ++ '<' :: (g ++ '>' :: post)))
          = some (sk ++ '<' :: (g ++ '>' :: post)) := by simp [dropLiteral]
      simp only [hd, Option.some_bind, hdsb, Option.map_some'])
  exact matchAlternatives_complete _ _ verb _ r hv
    (by
      have hd : dropLiteral [' '] (' ' :: (word ++ ':' :: (sk ++ '<' :: (g ++ '>' :: post))))
          = some (word ++ ':' :: (sk ++ '<' :: (g ++ '>' :: post))) := by simp [dropLiteral]
      simp only [hd, Option.some_bind]
      exact hr)

theorem findAllStringSubmatch1_leftmost (pre suf : List Char) (m : List (List Char))
    (hm : matchAddrHere suf = some m)
    (hleft : ∀ pre' suf', pre' ++ suf' = pre ++ suf → pre'.length < pre.length →
      matchAddrHere suf' = none) :
    findAllStringSubmatch1 (pre ++ suf) = [m] := by
  induction pre with
  | nil =>
    cases suf with
    | nil =>
      have : matchAddrHere [] = none := by decide
      rw [this] at hm
      exact Option.noConfusion hm
    | cons c rest => simp only [List.nil_append, findAllStringSubmatch1, hm]
  | cons c p ih =>
    have h0 : matchAddrHere (c :: (p ++ suf)) = none := hleft [] (c :: (p ++ suf)) rfl (by simp)
    show findAllStringSubmatch1 (c :: (p ++ suf)) = [m]
    simp only [findAllStringSubmatch1, h0]
    exact ih (fun pre' suf' he hl => hleft (c :: pre') suf' (by simp [he]) (by simpa using hl))

theorem AddrMatch.prepend (pre suf verb word sk g post : List Char)
    (h : AddrMatch suf [] verb word sk g post) : AddrMatch (pre ++ suf) pre verb word sk g post := by
  obtain ⟨hs, rest⟩ := h
  exact ⟨by rw [hs]; rfl, rest⟩

/-- A line without a match of the address expression is sanitized to the
sentinel. -/
theorem sanitizeAddr_no_match (line : List Char)
    (h : ¬ ∃ pre verb word sk g post, AddrMatch line pre verb word sk g post) :
    sanitizeAddr line = defaultAddr := by
  rcases findAllStringSubmatch1_cases line with h0 | ⟨pre, suf, m, h1, h2, _⟩
  · unfold sanitizeAddr
    rw [h0]; rfl
  · exfalso
    obtain ⟨verb, word, sk, g, post, hm, _⟩ := matchAddrHere_sound suf m h2
    exact h ⟨pre, verb, word, sk, g, post, h1 ▸ AddrMatch.prepend pre suf verb word sk g post hm⟩

/-- The group that `sanitizeAddr` rewrites: the one of the match that starts
leftmost and, from that start, lets the text before the group run longest. -/
theorem sanitizeAddr_leftmost_longest (line pre verb word sk g post : List Char)
    (hm : AddrMatch line pre verb word sk g post)
    (hleft : ∀ pre' verb' word' sk' g' post', AddrMatch line pre' verb' word' sk' g' post' →
      pre.length ≤ pre'.length)
    (hlong : ∀ verb' word' sk' g' post', AddrMatch line pre verb' word' sk' g' post' →
      sk'.length ≤ sk.length) :
    sanitizeAddr line = replaceAllString false g := by
  obtain ⟨hline, hv, hw, hnl, hg1, hg2⟩ := hm
  have hloc : AddrMatch (verb ++ ' ' :: (word ++ ':' :: (sk ++ '<' :: (g ++ '>' :: post)))) []
      verb word sk g post := ⟨rfl, hv, hw, hnl, hg1, hg2⟩
  obtain ⟨m, hmatch⟩ := matchAddrHere_complete _ verb word sk g post hloc
  obtain ⟨verb', word', sk', g', post', hm', h4, hg3, hdsb⟩ := matchAddrHere_sound _ m hmatch
  have hm'' := hm'
  obtain ⟨hs', hv', hw', _, _, hg2'⟩ := hm'
  have hvs : ∀ v ∈ ["MAIL".toList, "RCPT".toList, "Mail".toList], ' ' ∉ v := by decide
  have hws : ∀ v ∈ ["FROM".toList, "TO".toList, "From".toList, "To".toList, "from".toList,
      "to".toList], ':' ∉ v := by decide
  rw [List.nil_append] at hs'
  obtain ⟨_, e1⟩ := append_cons_unique ' ' verb verb' _ _ hs' (hvs verb hv) (hvs verb' hv')
  obtain ⟨_, e2⟩ := append_cons_unique ':' word word' _ _ e1 (hws word hw) (hws word' hw')
  obtain ⟨sk'', g'', hc, hle⟩ := matchDotStarBracket_complete sk g post hnl hg1 hg2
  rw [e2, hdsb] at hc
  simp only [Option.some.injEq, Prod.mk.injEq] at hc
  have hle' : sk.length ≤ sk'.length := by rw [hc.1]; exact hle
  have hge : sk'.length ≤ sk.length := by
    refine hlong verb' word' sk' g' post' ?_
    rw [hline]
    exact AddrMatch.prepend pre _ verb' word' sk' g' post' hm''
  have hlen : sk.length = sk'.length := Nat.le_antisymm hle' hge
  obtain ⟨_, e3⟩ := List.append_inj e2 hlen
  have e4 : g ++ '>' :: post = g' ++ '>' :: post' := by simpa using e3
  obtain ⟨hgg, _⟩ := append_cons_unique '>' g g' _ _ e4 hg2 hg2'
  have hfind : findAllStringSubmatch1 line = [m] := by
    rw [hline]
    refine findAllStringSubmatch1_leftmost pre _ m hmatch ?_
    intro pre' suf' he hl
    cases hn : matchAddrHere suf' with
    | none => rfl
    | some m' =>
      exfalso
      obtain ⟨v2, w2, s2, g2, p2, hm2, _⟩ := matchAddrHere_sound suf' m' hn
      have := hleft pre' v2 w2 s2 g2 p2 (by
        rw [hline, ← he]
        exact AddrMatch.prepend pre' suf' v2 w2 s2 g2 p2 hm2)
      omega
  have hpos : 0 < g'.length := by
    rw [← hgg]; exact List.length_pos.mpr hg1
  unfold sanitizeAddr
  rw [hfind]
  simp only [List.head?_cons, h4, hg3]
  rw [hgg]
  simp [hpos]

theorem findAllStringSubmatch1_ne_nil (pre suf : List Char) (m : List (List Char))
    (hm : matchAddrHere suf = some m) : findAllStringSubmatch1 (pre ++ suf) ≠ [] := by
  induction pre with
  | nil =>
    cases suf with
    | nil =>
      have : matchAddrHere [] = none := by decide
      rw [this] at hm
      exact Option.noConfusion hm
    | cons c rest => simp only [List.nil_append, findAllStringSubmatch1, hm]; simp
  | cons c p ih =>
    show findAllStringSubmatch1 (c :: (p ++ suf)) ≠ []
    simp only [findAllStringSubmatch1]
    split
    · simp
    · exact ih

/-- A line with a match of the address expression is sanitized to the
rewritten group of a match. -/
theorem sanitizeAddr_some_match (line : List Char)
    (h : ∃ pre verb word sk g post, AddrMatch line pre verb word sk g post) :
    ∃ pre verb word sk g post, AddrMatch line pre verb word sk g post
      ∧ sanitizeAddr line = replaceAllString false g := by
  rcases findAllStringSubmatch1_cases line with h0 | ⟨pre, suf, m, h1, h2, h3⟩
  · exfalso
    obtain ⟨pre, verb, word, sk, g, post, hm⟩ := h
    have hloc : AddrMatch (verb ++ ' ' :: (word ++ ':' :: (sk ++ '<' :: (g ++ '>' :: post)))) []
        verb word sk g post := ⟨rfl, hm.2⟩
    obtain ⟨m, hmatch⟩ := matchAddrHere_complete _ verb word sk g post hloc
    have := findAllStringSubmatch1_ne_nil pre _ m hmatch
    rw [← hm.1] at this
    exact this h0
  · obtain ⟨verb, word, sk, g, post, hm, h4, hg3, _⟩ := matchAddrHere_sound suf m h2
    refine ⟨pre, verb, word, sk, g, post,
      h1 ▸ AddrMatch.prepend pre suf verb word sk g post hm, ?_⟩
    have hpos : 0 < g.length := List.length_pos.mpr hm.2.2.2.2.1
    unfold sanitizeAddr
    rw [h3]
    simp only [List.head?_cons, h4, hg3]
    simp [hpos]

/-- C18: `sanitizeAddr` returns the sentinel when the line holds no match of
the address expression, and otherwise the text of the bracket group of a
match (the match that starts leftmost and, from there, lets the text before
the group run longest) with every maximal run of bytes outside `[A-Za-z0-9@]`
replaced by one dot.  So for every line the result is not empty, is made of
bytes of `[A-Za-z0-9@.]` only and has no two dots in a row: it holds no slash,
no white space and no quote. -/
theorem sanitizeAddr_result_safe (line : List Char) :
    ((¬ ∃ pre verb word sk g post, AddrMatch line pre verb word sk g post) →
      sanitizeAddr line = "invalid@addr".toList)
    ∧ ((∃ pre verb word sk g post, AddrMatch line pre verb word sk g post) →
        ∃ pre verb word sk g post, AddrMatch line pre verb word sk g post
          ∧ sanitizeAddr line = replaceAllString false g)
    ∧ (∀ pre verb word sk g post : List Char, AddrMatch line pre verb word sk g post →
        (∀ pre' verb' word' sk' g' post', AddrMatch line pre' verb' word' sk' g' post' →
          pre.length ≤ pre'.length) →
        (∀ verb' word' sk' g' post', AddrMatch line pre verb' word' sk' g' post' →
          sk'.length ≤ sk.length) →
        sanitizeAddr line = replaceAllString false g)
    ∧ sanitizeAddr "MAIL FROM:<John.Doe+tag@ex-ample.org>\r\n".toList
        = "John.Doe.tag@ex.ample.org".toList
    ∧ sanitizeAddr "RCPT TO:<../../etc/passwd>\r\n".toList = ".etc.passwd".toList
    ∧ sanitizeAddr "xx Mail from: <a b\x27; rm -rf $HOME>\r\n".toList = "a.b.rm.rf.HOME".toList
    ∧ (sanitizeAddr line = "invalid@addr".toList
      ∨ ∃ pre g post, line = pre ++ '<' :: g ++ '>' :: post ∧ g ≠ [] ∧ '>' ∉ g
          ∧ sanitizeAddr line = replaceAllString false g)
    ∧ (∀ a u rest : List Char, (∀ c ∈ a, addrSafe c = true) → u ≠ [] →
        (∀ c ∈ u, addrSafe c = false) → (∀ c, rest.head? = some c → addrSafe c = true) →
        replaceAllString false (a ++ u ++ rest) = a ++ '.' :: replaceAllString false rest)
    ∧ (∀ a : List Char, (∀ c ∈ a, addrSafe c = true) → replaceAllString false a = a)
    ∧ sanitizeAddr line ≠ []
    ∧ (∀ c ∈ sanitizeAddr line, addrSafe c = true ∨ c = '.')
    ∧ ¬ ['.', '.'] <:+: sanitizeAddr line
    ∧ (∀ c ∈ sanitizeAddr line, c ≠ '/' ∧ c ≠ byte 0x27 ∧ c ≠ byte 0x22 ∧ c ≠ byte 0x60
        ∧ c ≠ byte 0x5C ∧ asciiSpace c = false) := by
  have hchars : ∀ c ∈ sanitizeAddr line, addrSafe c = true ∨ c = '.' := by
    rcases sanitizeAddr_cases line with h | ⟨_, g, _, _, _, _, h⟩
    · rw [h]; decide
    · rw [h]; exact replaceAllString_chars g false
  refine ⟨sanitizeAddr_no_match line, sanitizeAddr_some_match line,
    sanitizeAddr_leftmost_longest line, by decide, by decide, by decide,
    sanitizeAddr_cases line, replaceAllString_run, ?_, ?_, hchars, ?_, ?_⟩
  · intro a ha
    exact replaceAllString_fixed a false (fun c hc => Or.inl (ha c hc))
      (fun ⟨s, t, e⟩ => by
        have hm : '.' ∈ a := by rw [← e]; simp
        exact absurd (ha _ hm) (by decide))
      (by simp)
  · rcases sanitizeAddr_cases line with h | ⟨_, g, _, _, hg, _, h⟩
    · rw [h]; decide
    · rw [h]; exact replaceAllString_ne_nil g hg
  · rcases sanitizeAddr_cases line with h | ⟨_, g, _, _, _, _, h⟩
    · rw [h]; decide
    · rw [h]; exact (replaceAllString_dots g false).1
  · intro c hc
    have key : ∀ d : Char, addrSafe d = false → d ≠ '.' → c ≠ d := by
      intro d hd hdot e
      rcases hchars c hc with h | h
      · rw [e, hd] at h; exact Bool.noConfusion h
      · exact hdot (e ▸ h)
    refine ⟨key _ (by decide) (by decide), key _ (by decide) (by decide),
      key _ (by decide) (by decide), key _ (by decide) (by decide),
      key _ (by decide) (by decide), ?_⟩
    rcases hchars c hc with h | h
    · cases hs : asciiSpace c with
      | false => rfl
      | true =>
        exfalso
        simp only [asciiSpace, Bool.or_eq_true, beq_iff_eq] at hs
        rcases hs with ((((e | e) | e) | e) | e) | e <;> rw [e] at h <;> exact absurd h (by decide)
    · rw [h]; decide

/-! ## Several bracket groups, and the case of the keywords -/

theorem matchDotStarBracket_last (sk body post : List Char) (hnl : '\n' ∉ sk) (h1 : body ≠ [])
    (h2 : '>' ∉ body) (h3 : '<' ∉ body) (h4 : '<' ∉ post) :
    matchDotStarBracket (sk ++ '<' :: body ++ '>' :: post) = some (sk, body) := by
  induction sk with
  | nil => exact matchDotStarBracket_single body post h1 h2 h3 h4
  | cons c sk ih =>
    have hc : (c == '\n') = false := by
      have : c ≠ '\n' := fun e => hnl (by simp [e])
      simpa using this
    have ih' := ih (fun hm => hnl (by simp [hm]))
    show matchDotStarBracket (c :: (sk ++ '<' :: body ++ '>' :: post)) = _
    simp only [matchDotStarBracket, hc, Bool.false_eq_true, if_false, ih']

theorem sanitizeAddr_last_group (kw sk body post : List Char)
    (hkw : kw = "MAIL FROM:".toList ∨ kw = "RCPT TO:".toList) (hnl : '\n' ∉ sk)
    (h1 : body ≠ []) (h2 : '>' ∉ body) (h3 : '<' ∉ body) (h4 : '<' ∉ post) :
    sanitizeAddr (kw ++ sk ++ '<' :: body ++ '>' :: post) = replaceAllString false body := by
  have hm := matchDotStarBracket_last sk body post hnl h1 h2 h3 h4
  rcases hkw with hkw | hkw <;> subst hkw
  · refine sanitizeAddr_of_match _
      ["MAIL FROM:".toList ++ sk ++ '<' :: body ++ ['>'], "MAIL".toList, "FROM".toList, body]
      body (by simp) ?_ rfl rfl h1
    rw [List.append_assoc, List.append_assoc, matchAddrHere_mail_from, ← List.append_assoc, hm]
    rfl
  · refine sanitizeAddr_of_match _
      ["RCPT TO:".toList ++ sk ++ '<' :: body ++ ['>'], "RCPT".toList, "TO".toList, body]
      body (by simp) ?_ rfl rfl h1
    rw [List.append_assoc, List.append_assoc, matchAddrHere_rcpt_to, ← List.append_assoc, hm]
    rfl

/-- C13 fails as stated: of the two groups of `MAIL FROM:<a@x.com> <b@y.com>`
the second one is returned. -/
theorem sanitizeAddr_two_groups_second :
    sanitizeAddr "MAIL FROM:<a@x.com> <b@y.com>".toList = "b@y.com".toList
    ∧ sanitizeAddr "MAIL FROM:<a@x.com> <b@y.com>".toList ≠ "a@x.com".toList := by
  constructor <;> decide

/-- C13, amended: of two or more bracket groups that follow the keyword on
one line `sanitizeAddr` uses the last: for a line `MAIL FROM:` or `RCPT TO:`,
a first group, any text without a line feed, and a last group after which no
`<` comes, the result is the sanitized text of the last group. -/
theorem sanitizeAddr_uses_last_group (kw first mid last post : List Char)
    (hkw : kw = "MAIL FROM:".toList ∨ kw = "RCPT TO:".toList)
    (hfirst : '\n' ∉ first) (hmid : '\n' ∉ mid) (h1 : last ≠ []) (h2 : '>' ∉ last)
    (h3 : '<' ∉ last) (h4 : '<' ∉ post) :
    sanitizeAddr (kw ++ '<' :: first ++ '>' :: mid ++ '<' :: last ++ '>' :: post)
      = replaceAllString false last := by
  have h := sanitizeAddr_last_group kw ('<' :: first ++ '>' :: mid) last post hkw
    (by simp [hfirst, hmid]) h1 h2 h3 h4
  simpa using h

/-- C13, amended, at `RCPT TO:<a@x.com> <b@y.com>` followed by the line end. -/
theorem sanitizeAddr_uses_last_group_witness :
    sanitizeAddr ("RCPT TO:".toList ++ '<' :: "a@x.com".toList ++ '>' :: " ".toList
        ++ '<' :: "b@y.com".toList ++ '>' :: "\r\n".toList)
      = replaceAllString false "b@y.com".toList :=
  sanitizeAddr_uses_last_group "RCPT TO:".toList "a@x.com".toList " ".toList "b@y.com".toList
    "\r\n".toList (Or.inr rfl) (by decide) (by decide) (by decide) (by decide) (by decide)
    (by decide)

/-- C14: the code at the failing inputs.  The lines `mail from:<a@x.com>`,
`Rcpt To:<a@x.com>` and `MAIL FrOm:<a@x.com>` are sanitized to the sentinel,
while `replyCommand` dispatches them as `MAIL`, `RCPT` and `MAIL`; the session
`mail from:<a@x.com>`, `rcpt to:<b@y.com>`, `DATA`, a body line, the dot line
and `QUIT` is persisted with both addresses `invalid@addr`. -/
theorem sanitizeAddr_keyword_case :
    sanitizeAddr "mail from:<a@x.com>\r\n".toList = "invalid@addr".toList
    ∧ sanitizeAddr "Rcpt To:<a@x.com>\r\n".toList = "invalid@addr".toList
    ∧ sanitizeAddr "MAIL FrOm:<a@x.com>\r\n".toList = "invalid@addr".toList
    ∧ (replyCommand ⟨[], [], []⟩ "mail from:<a@x.com>\r\n".toList).map Prod.snd
        = some CommandMail
    ∧ (replyCommand ⟨[], [], []⟩ "Rcpt To:<a@x.com>\r\n".toList).map Prod.snd
        = some CommandRcpt
    ∧ (replyCommand ⟨[], [], []⟩ "MAIL FrOm:<a@x.com>\r\n".toList).map Prod.snd
        = some CommandMail
    ∧ (∃ r, handleConn exampleConfig exampleWorld ⟨examplePeer, lowerCaseSession, []⟩
          = Outcome.returned r
        ∧ r.fromAddr = "invalid@addr".toList ∧ r.toAddr = "invalid@addr".toList
        ∧ r.files.map Prod.fst
            = ["mail/invalid@addr--invalid@addr--4.3.2.1--1530576000.txt".toList]) := by
  refine ⟨by decide, by decide, by decide, by decide, by decide, by decide, ?_⟩
  obtain ⟨r, rest, hr, _, h2, h3, h4, _, _, _, hf⟩ :=
    handleConn_spec exampleConfig exampleWorld ⟨examplePeer, lowerCaseSession, []⟩ rfl rfl rfl
  have hl : sessionLines ⟨examplePeer, lowerCaseSession, []⟩
      = [ ("mail from:<a@x.com>\r\n".toList, true), ("rcpt to:<b@y.com>\r\n".toList, true),
          ("DATA\r\n".toList, true), ("hello world\r\n".toList, false), (".\r\n".toList, true),
          ("QUIT\r\n".toList, true) ] := by
    show handledLines false (linesRead 1024 lowerCaseSession []) = _
    decide
  rw [hl] at h2 h3 h4
  have hfrom : r.fromAddr = "invalid@addr".toList := by rw [h3]; decide
  have hto : r.toAddr = "invalid@addr".toList := by rw [h4]; decide
  have hout : r.output = lowerCaseSession := by rw [h2]; decide
  refine ⟨r, hr, hfrom, hto, ?_⟩
  rw [hf, hout, hto, hfrom]
  decide

/-! ## What `readCommand` returns; no pass of the loop panics -/

theorem readCommandLoop_ok (ra : List Char) (pending : List Char) (events : List Event)
    (buf : List Char) (length : Nat) (h : length ≤ buf.length)
    (herr : (readCommandLoop ra pending events buf length).err = false) :
    ∃ body rest, pending = body ++ '\n' :: rest ∧ '\n' ∉ body
      ∧ (readCommandLoop ra pending events buf length).n = length + body.length + 1
      ∧ length + body.length + 1 ≤ buf.length
      ∧ (readCommandLoop ra pending events buf length).buf.length = buf.length
      ∧ (readCommandLoop ra pending events buf length).buf.take (length + body.length + 1)
          = buf.take length ++ body ++ ['\n']
      ∧ (readCommandLoop ra pending events buf length).conn
          = ⟨ra, rest, events ++ (body ++ ['\n']).map Event.recv⟩ := by
  induction pending generalizing events buf length with
  | nil => simp [readCommandLoop] at herr
  | cons c rest ih =>
    by_cases hlt : length < buf.length
    · by_cases hc : c = '\n'
      · subst hc
        refine ⟨[], rest, rfl, by simp, ?_, by simpa using hlt, ?_, ?_, ?_⟩
        · simp [readCommandLoop, hlt]
        · simp [readCommandLoop, hlt]
        · simp only [readCommandLoop, hlt, if_true, beq_self_eq_true, List.length_nil,
            Nat.add_zero, List.append_nil]
          exact take_succ_set buf length '\n' hlt
        · simp [readCommandLoop, hlt]
      · have hc' : (c == '\n') = false := by simpa using hc
        have hstep : readCommandLoop ra (c :: rest) events buf length
            = readCommandLoop ra rest (events ++ [Event.recv c]) (buf.set length c)
                (length + 1) := by
          simp only [readCommandLoop, hlt, if_true, hc', Bool.false_eq_true, if_false]
        rw [hstep] at herr ⊢
        obtain ⟨body, rest', h1, h2, h3, h4, h5, h6, h7⟩ :=
          ih (events ++ [Event.recv c]) (buf.set length c) (length + 1)
            (by simpa using hlt) herr
        simp only [List.length_set] at h4 h5
        refine ⟨c :: body, rest', by rw [h1]; rfl, ?_, ?_, ?_, h5, ?_, ?_⟩
        · intro hm
          rcases List.mem_cons.mp hm with e | e
          · exact hc e.symm
          · exact h2 e
        · rw [h3]; simp only [List.length_cons]; omega
        · simp only [List.length_cons]; omega
        · have e : length + (c :: body).length + 1 = length + 1 + body.length + 1 := by
            simp only [List.length_cons]; omega
          rw [e, h6, take_succ_set buf length c hlt]
          simp
        · rw [h7]; simp
    · rw [readCommandLoop_full ra (c :: rest) events buf length (Nat.not_lt.mp hlt)] at herr
      exact Bool.noConfusion herr

theorem commandParseStep_ne_fault (s : Session) : commandParseStep s ≠ Step.fault := by
  cases hl : linesRead s.rawData.length s.conn.pending [] with
  | nil =>
    obtain ⟨buf, h⟩ := commandParseStep_err s hl
    rw [h]
    exact fun e => Step.noConfusion e
  | cons l ls =>
    obtain ⟨buf, rest, _, _, _, _, h⟩ := commandParseStep_line s l ls hl
    rw [h, switchCmd_eq]
    split
    · exact fun e => Step.noConfusion e
    · split <;> exact fun e => Step.noConfusion e

theorem handleConn_returns (cfg : Config) (w : World) (conn : Conn) :
    ∃ r, handleConn cfg w conn = Outcome.returned r := by
  by_cases hgo : (isSpammerAddr w.lookupHost cfg.serverBlocklist conn.remoteAddr
      && cfg.spamDetection) = false ∧ w.tempFileOk = true ∧ w.bannerOk = true
  · obtain ⟨r, _, hr, _⟩ := handleConn_spec cfg w conn hgo.1 hgo.2.1 hgo.2.2
    exact ⟨r, hr⟩
  · exact ⟨_, handleConn_total cfg w conn hgo⟩

/-- C19: when `readCommand` returns without error, its length `n` is at least
1 and at most the capacity of the buffer, byte `n-1` of the buffer is the line
feed, and the first `n` bytes of the buffer are, in order, exactly the bytes
read during the call, with no line feed before the last.  So the indexings
that follow are in range: `replyCommand` never fails on `args[0]`, no pass of
the loop panics, and `handleConn` returns on every input. -/
theorem readCommand_postcondition (conn : Conn) (buf : List Char) :
    ((readCommand conn buf).err = false →
      1 ≤ (readCommand conn buf).n ∧ (readCommand conn buf).n ≤ buf.length
      ∧ (readCommand conn buf).buf.length = buf.length
      ∧ (readCommand conn buf).buf[(readCommand conn buf).n - 1]? = some '\n'
      ∧ '\n' ∉ (readCommand conn buf).buf.take ((readCommand conn buf).n - 1)
      ∧ conn.pending = (readCommand conn buf).buf.take (readCommand conn buf).n
          ++ (readCommand conn buf).conn.pending
      ∧ (readCommand conn buf).conn.events
          = conn.events ++ ((readCommand conn buf).buf.take (readCommand conn buf).n).map
              Event.recv)
    ∧ (∀ (c : Conn) (line : List Char), replyCommand c line ≠ none)
    ∧ (∀ s : Session, commandParseStep s ≠ Step.fault)
    ∧ (∀ (cfg : Config) (w : World) (c : Conn), ∃ r, handleConn cfg w c = Outcome.returned r) := by
  refine ⟨?_, ?_, commandParseStep_ne_fault, handleConn_returns⟩
  · intro herr
    obtain ⟨body, rest, h1, h2, h3, h4, h5, h6, h7⟩ :=
      readCommandLoop_ok conn.remoteAddr conn.pending conn.events buf 0 (Nat.zero_le _) herr
    have hn : (readCommand conn buf).n = body.length + 1 := by
      unfold readCommand; rw [h3]; omega
    have htake : (readCommand conn buf).buf.take (body.length + 1) = body ++ ['\n'] := by
      unfold readCommand
      have := h6
      simp only [Nat.zero_add, List.take_zero, List.nil_append] at this
      exact this
    have hlen : (readCommand conn buf).buf.length = buf.length := h5
    have hconn : (readCommand conn buf).conn
        = ⟨conn.remoteAddr, rest, conn.events ++ (body ++ ['\n']).map Event.recv⟩ := h7
    rw [hn]
    refine ⟨by omega, by omega, hlen, ?_, ?_, ?_, ?_⟩
    · have hlt : body.length < (readCommand conn buf).buf.length := by rw [hlen]; omega
      have e1 : ((readCommand conn buf).buf.take (body.length + 1))[body.length]?
          = (readCommand conn buf).buf[body.length]? := by
        rw [List.getElem?_take]
        simp
      simp only [Nat.add_sub_cancel]
      rw [← e1, htake]
      simp
    · simp only [Nat.add_sub_cancel]
      have e2 : (readCommand conn buf).buf.take body.length
          = ((readCommand conn buf).buf.take (body.length + 1)).take body.length := by
        rw [List.take_take]; simp
      rw [e2, htake]
      simpa using h2
    · rw [htake, hconn, h1]; simp
    · rw [htake, hconn]
  · intro c line
    rw [replyCommand_spec]
    exact fun e => Option.noConfusion e

/-- C19 at a buffer of four bytes and the pending bytes `ab`, line feed,
`cd`. -/
theorem readCommand_postcondition_witness :
    (readCommand ⟨[], "ab\ncd".toList, []⟩ (List.replicate 4 (byte 0))).n = 3
    ∧ 1 ≤ (readCommand ⟨[], "ab\ncd".toList, []⟩ (List.replicate 4 (byte 0))).n
    ∧ (readCommand ⟨[], "ab\ncd".toList, []⟩ (List.replicate 4 (byte 0))).n ≤ 4 :=
  ⟨by decide,
   ((readCommand_postcondition ⟨[], "ab\ncd".toList, []⟩ (List.replicate 4 (byte 0))).1
      (by decide)).1,
   ((readCommand_postcondition ⟨[], "ab\ncd".toList, []⟩ (List.replicate 4 (byte 0))).1
      (by decide)).2.1⟩

/-! ## Bytes beyond the line buffer -/

theorem linesRead_overflow (cap : Nat) (over post cur : List Char) (hnl : '\n' ∉ over)
    (hlen : cap ≤ cur.length + over.length) : linesRead cap (over ++ post) cur = [] := by
  induction over generalizing cur with
  | nil =>
    have hc : ¬ cur.length < cap := by simp at hlen; omega
    cases post with
    | nil => rfl
    | cons c post => simp only [List.nil_append, linesRead, hc, if_false]
  | cons c over ih =>
    have hcn : (c == '\n') = false := by
      have : c ≠ '\n' := fun e => hnl (by simp [e])
      simpa using this
    show linesRead cap (c :: (over ++ post)) cur = []
    by_cases hc : cur.length < cap
    · simp only [linesRead, hc, if_true, hcn, Bool.false_eq_true, if_false]
      exact ih (cur ++ [c]) (fun hm => hnl (by simp [hm])) (by
        simp only [List.length_append, List.length_singleton, List.length_cons] at hlen ⊢
        omega)
    · simp only [linesRead, hc, if_false]

/-- The lines read from a stream stop before a run of `cap` bytes or more
without a line feed: what is read is what is read from the part before it. -/
theorem linesRead_before_overflow (cap : Nat) (pre over post cur : List Char)
    (hcur : pre = [] → cur = []) (hpre : pre ≠ [] → pre.getLast? = some '\n')
    (hnl : '\n' ∉ over) (hlen : cap ≤ over.length) :
    linesRead cap (pre ++ over ++ post) cur = linesRead cap pre cur := by
  induction pre generalizing cur with
  | nil =>
    rw [hcur rfl]
    simp only [List.nil_append, linesRead]
    exact linesRead_overflow cap over post [] hnl (by simpa using hlen)
  | cons c p ih =>
    have hlast : (c :: p).getLast? = some '\n' := hpre (by simp)
    have hp : p ≠ [] → p.getLast? = some '\n' := by
      intro hne
      cases p with
      | nil => exact absurd rfl hne
      | cons d p' => simpa using hlast
    show linesRead cap (c :: (p ++ over ++ post)) cur = linesRead cap (c :: p) cur
    by_cases hc : cur.length < cap
    · by_cases hcn : c = '\n'
      · subst hcn
        simp only [linesRead, hc, if_true, beq_self_eq_true]
        rw [ih [] (fun _ => rfl) hp]
      · have hcn' : (c == '\n') = false := by simpa using hcn
        have hpne : p ≠ [] := by
          intro e
          subst e
          simp at hlast
          exact hcn hlast
        simp only [linesRead, hc, if_true, hcn', Bool.false_eq_true, if_false]
        exact ih (cur ++ [c]) (fun e => absurd e hpne) hp
    · simp only [linesRead, hc, if_false]

theorem linesRead_flatten (cap : Nat) (s cur : List Char) :
    (linesRead cap s cur).flatten <+: cur ++ s := by
  induction s generalizing cur with
  | nil => simp [linesRead]
  | cons c s ih =>
    by_cases hc : cur.length < cap
    · by_cases hcn : c = '\n'
      · subst hcn
        simp only [linesRead, hc, if_true, beq_self_eq_true, List.flatten_cons]
        obtain ⟨k, hk⟩ := ih []
        exact ⟨k, by rw [List.append_assoc, List.append_assoc, hk]; simp⟩
      · have hcn' : (c == '\n') = false := by simpa using hcn
        simp only [linesRead, hc, if_true, hcn', Bool.false_eq_true, if_false]
        obtain ⟨k, hk⟩ := ih (cur ++ [c])
        exact ⟨k, by rw [hk]; simp⟩
    · simp only [linesRead, hc, if_false, List.flatten_nil]
      exact List.nil_prefix

theorem flatten_prefix (a b : List (List Char)) (h : a <+: b) : a.flatten <+: b.flatten := by
  obtain ⟨t, ht⟩ := h
  exact ⟨t.flatten, by rw [← ht]; simp⟩

/-- The lines a session handles all lie before a run of 1024 bytes or more
without a line feed. -/
theorem sessionLines_before_overflow (conn : Conn) (pre over post : List Char)
    (hp : conn.pending = pre ++ over ++ post) (hpre : pre = [] ∨ pre.getLast? = some '\n')
    (hnl : '\n' ∉ over) (hlen : 1024 ≤ over.length) :
    sessionLines conn = handledLines false (linesRead 1024 pre [])
      ∧ ((sessionLines conn).map Prod.fst).flatten <+: pre := by
  have hl : linesRead 1024 conn.pending [] = linesRead 1024 pre [] := by
    rw [hp]
    refine linesRead_before_overflow 1024 pre over post [] (fun _ => rfl) ?_ hnl hlen
    intro hne
    rcases hpre with h | h
    · exact absurd h hne
    · exact h
  have hs : sessionLines conn = handledLines false (linesRead 1024 pre []) := by
    unfold sessionLines; rw [hl]
  refine ⟨hs, ?_⟩
  rw [hs]
  have h1 := flatten_prefix _ _ (handledLines_initial false (linesRead 1024 pre []))
  have h2 := linesRead_flatten 1024 pre []
  simp only [List.nil_append] at h2
  exact h1.trans h2

/-- C12 fails as stated: a session of three complete lines (53 bytes)
followed by 1025 bytes `x` without a line feed buffers and persists the 53
bytes only, although every byte has been read. -/
theorem handleConn_overlong_not_buffered :
    ∃ r, handleConn exampleConfig exampleWorld
          ⟨examplePeer, threeLines ++ List.replicate 1025 'x', []⟩ = Outcome.returned r
      ∧ r.conn.pending = [] ∧ r.output = threeLines ∧ r.output.length = 53
      ∧ r.files.map Prod.snd = [threeLines] := by
  obtain ⟨r, rest, hr, _, h2, _, _, _, h6, _, hf⟩ :=
    handleConn_spec exampleConfig exampleWorld
      ⟨examplePeer, threeLines ++ List.replicate 1025 'x', []⟩ rfl rfl rfl
  have hs := (sessionLines_before_overflow
    ⟨examplePeer, threeLines ++ List.replicate 1025 'x', []⟩ threeLines
    (List.replicate 1025 'x') [] (List.append_nil _).symm (Or.inr (by decide))
    (fun h => absurd (List.eq_of_mem_replicate h) (by decide))
    (by simp only [List.length_replicate]; omega)).1
  have hl : handledLines false (linesRead 1024 threeLines [])
      = [ ("MAIL FROM:<a@x.com>\r\n".toList, true), ("RCPT TO:<b@y.com>\r\n".toList, true),
          ("hello world\r\n".toList, true) ] := by decide
  rw [hs, hl] at h2 h6
  have hout : r.output = threeLines := by rw [h2]; decide
  have hlen : r.output.length = 53 := by rw [hout]; decide
  refine ⟨r, hr, ?_, hout, hlen, ?_⟩
  · rw [h6]; rfl
  · rw [hf]
    have : (exampleWorld.statOk && exampleWorld.copyOk && decide (50 < r.output.length))
        = true := by rw [hlen]; rfl
    rw [if_pos this, hout]
    rfl

/-- C12, amended: when 1024 bytes or more arrive without a line feed (after
the complete lines `pre`, if any), neither they nor a later byte are dispatched
as a command or appended to the message buffer: the lines handled, the bytes
buffered and the content of a persisted file all lie within `pre`. -/
theorem handleConn_overlong_line_dropped (cfg : Config) (w : World) (conn : Conn)
    (pre over post : List Char) (hp : conn.pending = pre ++ over ++ post)
    (hpre : pre = [] ∨ pre.getLast? = some '\n') (hnl : '\n' ∉ over)
    (hlen : 1024 ≤ over.length) :
    ∃ r, handleConn cfg w conn = Outcome.returned r
      ∧ ((sessionLines conn).map Prod.fst).flatten <+: pre
      ∧ r.output <+: pre ∧ r.output.length ≤ pre.length
      ∧ (∀ f ∈ r.files, f.2 <+: pre) := by
  have hs := (sessionLines_before_overflow conn pre over post hp hpre hnl hlen).2
  have key : ∀ r, handleConn cfg w conn = Outcome.returned r → r.output <+: pre
      ∧ (∀ f ∈ r.files, f.2 <+: pre) := by
    intro r hr
    by_cases hgo : (isSpammerAddr w.lookupHost cfg.serverBlocklist conn.remoteAddr
        && cfg.spamDetection) = false ∧ w.tempFileOk = true ∧ w.bannerOk = true
    · obtain ⟨r', _, hr', _, h2, _, _, _, _, _, hf⟩ :=
        handleConn_spec cfg w conn hgo.1 hgo.2.1 hgo.2.2
      have e : r = r' := by rw [hr] at hr'; exact Outcome.returned.inj hr'
      subst e
      have ho : r.output <+: pre := by rw [h2]; exact hs
      refine ⟨ho, ?_⟩
      intro f hfm
      rw [hf] at hfm
      split at hfm
      · simp only [List.mem_singleton] at hfm
        rw [hfm]; exact ho
      · simp at hfm
    · have e := handleConn_total cfg w conn hgo
      rw [hr] at e
      have e' := Outcome.returned.inj e
      subst e'
      exact ⟨List.nil_prefix, fun f hfm => by simp at hfm⟩
  obtain ⟨r, hr⟩ := handleConn_returns cfg w conn
  obtain ⟨ho, hfiles⟩ := key r hr
  exact ⟨r, hr, hs, ho, ho.length_le, hfiles⟩

/-- C12, amended, at the session of three lines followed by 1025 bytes. -/
theorem handleConn_overlong_line_dropped_witness :
    ∃ r, handleConn exampleConfig exampleWorld
          ⟨examplePeer, threeLines ++ List.replicate 1025 'x' ++ [], []⟩ = Outcome.returned r
      ∧ ((sessionLines ⟨examplePeer, threeLines ++ List.replicate 1025 'x' ++ [], []⟩).map
          Prod.fst).flatten <+: threeLines
      ∧ r.output <+: threeLines ∧ r.output.length ≤ threeLines.length
      ∧ (∀ f ∈ r.files, f.2 <+: threeLines) :=
  handleConn_overlong_line_dropped exampleConfig exampleWorld
    ⟨examplePeer, threeLines ++ List.replicate 1025 'x' ++ [], []⟩ threeLines
    (List.replicate 1025 'x') [] rfl (Or.inr (by decide))
    (fun h => absurd (List.eq_of_mem_replicate h) (by decide))
    (by simp only [List.length_replicate]; omega)

/-! ## The reversed address -/

theorem getD_append_cons (a b : List (List Char)) (x : List Char) (n : Nat)
    (hn : n = a.length) : (a ++ x :: b).getD n [] = x := by
  subst hn
  induction a with
  | nil => rfl
  | cons c a ih => simpa [List.getD_cons_succ] using ih

theorem set_append_cons (a b : List (List Char)) (x y : List Char) (n : Nat)
    (hn : n = a.length) : (a ++ x :: b).set n y = a ++ y :: b := by
  subst hn
  induction a with
  | nil => rfl
  | cons c a ih => simp [ih]

theorem reverseLoop_mid (k : Nat) (pre mid post : List (List Char))
    (hk : mid.length / 2 = k) (hlen : pre.length = post.length) :
    reverseLoop (pre.length + mid.length + post.length - 1) k pre.length (pre ++ mid ++ post)
      = pre ++ mid.reverse ++ post := by
  induction k generalizing pre mid post with
  | zero =>
    have hm : mid.length < 2 := by omega
    have : mid.reverse = mid := by
      cases mid with
      | nil => rfl
      | cons x m =>
        cases m with
        | nil => rfl
        | cons y m =>
          exfalso
          simp only [List.length_cons] at hm
          omega
    rw [this]; rfl
  | succ k ih =>
    cases mid with
    | nil =>
      simp only [List.length_nil] at hk
      omega
    | cons x m0 =>
      rcases List.eq_nil_or_concat m0 with e | ⟨m, y, e⟩
      · subst e
        simp only [List.length_cons, List.length_nil] at hk
        omega
      · rw [List.concat_eq_append] at e
        subst e
        have hk' : m.length / 2 = k := by
          simp only [List.length_cons, List.length_append, List.length_singleton,
            List.length_nil] at hk
          omega
        have hidx : pre.length + (x :: (m ++ [y])).length + post.length - 1 - pre.length
            = (pre ++ x :: m).length := by
          simp only [List.length_cons, List.length_append, List.length_singleton,
            List.length_nil]
          omega
        have e1 : pre ++ x :: (m ++ [y]) ++ post = pre ++ x :: (m ++ y :: post) := by simp
        have e2 : pre ++ x :: (m ++ y :: post) = (pre ++ x :: m) ++ y :: post := by simp
        have g1 : (pre ++ x :: (m ++ [y]) ++ post).getD
            (pre.length + (x :: (m ++ [y])).length + post.length - 1 - pre.length) [] = y := by
          rw [hidx, e1, e2]
          exact getD_append_cons _ _ _ _ rfl
        have g2 : (pre ++ x :: (m ++ [y]) ++ post).getD pre.length [] = x := by
          rw [e1]
          exact getD_append_cons _ _ _ _ rfl
        have s1 : (pre ++ x :: (m ++ [y]) ++ post).set pre.length y
            = (pre ++ y :: m) ++ y :: post := by
          rw [e1, set_append_cons _ _ _ _ _ rfl]
          simp
        have s2 : ((pre ++ y :: m) ++ y :: post).set
            (pre.length + (x :: (m ++ [y])).length + post.length - 1 - pre.length) x
            = (pre ++ [y]) ++ m ++ (x :: post) := by
          rw [hidx, set_append_cons _ _ _ _ _ (by simp)]
          simp
        have hlast : pre.length + (x :: (m ++ [y])).length + post.length - 1
            = (pre ++ [y]).length + m.length + (x :: post).length - 1 := by
          simp only [List.length_cons, List.length_append, List.length_singleton, List.length_nil]
          omega
        have hstep : reverseLoop (pre.length + (x :: (m ++ [y])).length + post.length - 1)
            (k + 1) pre.length (pre ++ x :: (m ++ [y]) ++ post)
            = reverseLoop (pre.length + (x :: (m ++ [y])).length + post.length - 1) k
                (pre.length + 1) ((pre ++ [y]) ++ m ++ (x :: post)) := by
          rw [reverseLoop, g1, g2, s1, s2]
        rw [hstep, hlast]
        have hi : pre.length + 1 = (pre ++ [y]).length := by simp
        rw [hi, ih (pre ++ [y]) m (x :: post) hk' (by simp [hlen])]
        simp

/-- The loop of `toIPAddress` reverses the list. -/
theorem reverseLoop_eq_reverse (dots : List (List Char)) :
    reverseLoop (dots.length - 1) (dots.length / 2) 0 dots = dots.reverse := by
  have := reverseLoop_mid (dots.length / 2) [] dots [] rfl rfl
  simpa using this

theorem stringsSplit_head_takeWhile (sep : Char) (s : List Char) :
    (stringsSplit sep s).headD [] = s.takeWhile (fun c => c != sep) := by
  induction s with
  | nil => rfl
  | cons c s ih =>
    by_cases hc : (c == sep) = true
    · have e : c = sep := by simpa using hc
      simp [stringsSplit, List.takeWhile_cons, e]
    · have hc' : (c == sep) = false := by simpa using hc
      have hcne : c ≠ sep := by simpa using hc'
      have hne := stringsSplit_ne_nil sep s
      cases hs : stringsSplit sep s with
      | nil => exact absurd hs hne
      | cons piece pieces =>
        rw [hs] at ih
        simp only [List.headD_cons] at ih
        simp [stringsSplit, List.takeWhile_cons, hc', hcne, hs, ih]

theorem stringsJoin_cons_cons (sep c : Char) (x : List Char) (l : List (List Char)) :
    stringsJoin sep ((c :: x) :: l) = c :: stringsJoin sep (x :: l) := by
  cases l <;> rfl

theorem stringsJoin_split (sep : Char) (s : List Char) :
    stringsJoin sep (stringsSplit sep s) = s := by
  induction s with
  | nil => rfl
  | cons c s ih =>
    have hne := stringsSplit_ne_nil sep s
    cases hs : stringsSplit sep s with
    | nil => exact absurd hs hne
    | cons piece pieces =>
      rw [hs] at ih
      by_cases hc : (c == sep) = true
      · have e : c = sep := by simpa using hc
        subst e
        simp only [stringsSplit, beq_self_eq_true, if_true, hs, stringsJoin, List.nil_append, ih]
      · have hc' : (c == sep) = false := by simpa using hc
        simp only [stringsSplit, hc', Bool.false_eq_true, if_false, hs,
          stringsJoin_cons_cons, ih]

theorem stringsSplit_join (sep : Char) (l : List (List Char)) (hne : l ≠ [])
    (h : ∀ x ∈ l, sep ∉ x) : stringsSplit sep (stringsJoin sep l) = l := by
  induction l with
  | nil => exact absurd rfl hne
  | cons x l ih =>
    cases l with
    | nil => exact stringsSplit_no_sep sep x (h x (by simp))
    | cons y rest =>
      simp only [stringsJoin]
      rw [stringsSplit_append sep x _ (h x (by simp)),
        ih (by simp) (fun z hz => h z (by simp [hz]))]

theorem stringsSplit_pieces (sep : Char) (s : List Char) :
    ∀ x ∈ stringsSplit sep s, sep ∉ x ∧ ∀ c ∈ x, c ∈ s := by
  induction s with
  | nil => simp [stringsSplit]
  | cons c s ih =>
    have hne := stringsSplit_ne_nil sep s
    cases hs : stringsSplit sep s with
    | nil => exact absurd hs hne
    | cons piece pieces =>
      rw [hs] at ih
      intro x hx
      by_cases hc : (c == sep) = true
      · simp only [stringsSplit, hc, if_true, hs, List.mem_cons] at hx
        rcases hx with e | e
        · subst e; simp
        · obtain ⟨h1, h2⟩ := ih x (by simpa using e)
          exact ⟨h1, fun d hd => List.mem_cons_of_mem _ (h2 d hd)⟩
      · have hc' : (c == sep) = false := by simpa using hc
        have hcne : c ≠ sep := by simpa using hc'
        simp only [stringsSplit, hc', Bool.false_eq_true, if_false, hs, List.mem_cons] at hx
        rcases hx with e | e
        · subst e
          obtain ⟨h1, h2⟩ := ih piece (by simp)
          refine ⟨?_, ?_⟩
          · intro hm
            rcases List.mem_cons.mp hm with e' | e'
            · exact hcne e'.symm
            · exact h1 e'
          · intro d hd
            rcases List.mem_cons.mp hd with e' | e'
            · rw [e']; simp
            · exact List.mem_cons_of_mem _ (h2 d e')
        · obtain ⟨h1, h2⟩ := ih x (by simp [e])
          exact ⟨h1, fun d hd => List.mem_cons_of_mem _ (h2 d hd)⟩

theorem mem_stringsJoin (sep c : Char) (l : List (List Char)) (h : c ∈ stringsJoin sep l) :
    c = sep ∨ ∃ x ∈ l, c ∈ x := by
  induction l with
  | nil => simp [stringsJoin] at h
  | cons x l ih =>
    cases l with
    | nil => exact Or.inr ⟨x, by simp, by simpa [stringsJoin] using h⟩
    | cons y rest =>
      simp only [stringsJoin, List.mem_append, List.mem_cons] at h
      rcases h with h | h | h
      · exact Or.inr ⟨x, by simp, h⟩
      · exact Or.inl h
      · rcases ih h with e | ⟨z, hz, hc⟩
        · exact Or.inl e
        · exact Or.inr ⟨z, by simp [List.mem_cons.mp hz], hc⟩

theorem toIPAddress_eq (addr : List Char) :
    toIPAddress addr
      = stringsJoin '.' (stringsSplit '.' (addr.takeWhile (fun c => c != ':'))).reverse := by
  unfold toIPAddress
  simp only [stringsSplit_head_takeWhile, reverseLoop_eq_reverse]

/-- C17: `toIPAddress` takes the text before the first colon, splits it at the
dots, reverses the order of the pieces and joins them with dots again, so the
pieces of the result are those of the text, each kept, in reverse order; an
address `a.b.c.d:port` gives `d.c.b.a` (`1.2.3.4:5678` gives `4.3.2.1`), and
`toIPAddress` of the result is the text before the colon again. -/
theorem toIPAddress_reverses (addr : List Char) :
    toIPAddress addr
      = stringsJoin '.' (stringsSplit '.' (addr.takeWhile (fun c => c != ':'))).reverse
    ∧ stringsSplit '.' (toIPAddress addr)
      = (stringsSplit '.' (addr.takeWhile (fun c => c != ':'))).reverse
    ∧ toIPAddress (toIPAddress addr) = addr.takeWhile (fun c => c != ':')
    ∧ (∀ a b c d port : List Char, '.' ∉ a ∧ ':' ∉ a → '.' ∉ b ∧ ':' ∉ b →
        '.' ∉ c ∧ ':' ∉ c → '.' ∉ d ∧ ':' ∉ d →
        toIPAddress (a ++ '.' :: b ++ '.' :: c ++ '.' :: d ++ ':' :: port)
          = d ++ '.' :: c ++ '.' :: b ++ '.' :: a)
    ∧ toIPAddress "1.2.3.4:5678".toList = "4.3.2.1".toList := by
  have hpieces := stringsSplit_pieces '.' (addr.takeWhile (fun c => c != ':'))
  have hrev_ne : (stringsSplit '.' (addr.takeWhile (fun c => c != ':'))).reverse ≠ [] := by
    simpa using stringsSplit_ne_nil '.' (addr.takeWhile (fun c => c != ':'))
  have hsplit : stringsSplit '.' (toIPAddress addr)
      = (stringsSplit '.' (addr.takeWhile (fun c => c != ':'))).reverse := by
    rw [toIPAddress_eq]
    exact stringsSplit_join '.' _ hrev_ne (fun x hx => (hpieces x (by simpa using hx)).1)
  have hcolon : ':' ∉ toIPAddress addr := by
    rw [toIPAddress_eq]
    intro hm
    rcases mem_stringsJoin '.' ':' _ hm with e | ⟨x, hx, hc⟩
    · exact absurd e (by decide)
    · have := (hpieces x (by simpa using hx)).2 ':' hc
      have := List.mem_takeWhile_imp this
      simp at this
  have htw : (toIPAddress addr).takeWhile (fun c => c != ':') = toIPAddress addr := by
    rw [← stringsSplit_head_takeWhile, stringsSplit_no_sep ':' _ hcolon]
    rfl
  refine ⟨toIPAddress_eq addr, hsplit, ?_, toIPAddress_quad, by decide⟩
  rw [toIPAddress_eq (toIPAddress addr), htw, hsplit, List.reverse_reverse, stringsJoin_split]

/-! ## Trimming and the first token -/

theorem prefix_mem_of_lt (u a b : List Char) (c : Char) (h : u <+: a ++ c :: b)
    (hlt : a.length < u.length) : c ∈ u := by
  obtain ⟨t, ht⟩ := h
  rcases List.append_eq_append_iff.mp ht with ⟨a', h1, _⟩ | ⟨c', h1, h2⟩
  · have := congrArg List.length h1
    simp only [List.length_append] at this
    omega
  · cases c' with
    | nil =>
      have := congrArg List.length h1
      simp only [List.length_append, List.length_nil] at this
      omega
    | cons d c'' =>
      simp only [List.cons_append, List.cons.injEq] at h2
      rw [h1, h2.1]
      simp

theorem spaceByte_not_mem (c : Char) (hc : spaceByte c = false) (u : List Char)
    (hu : u ∈ unicodeSpaces) (rev : Bool) : c ∉ (if rev then u.reverse else u) := by
  intro hm
  have hm' : c ∈ u := by
    cases rev
    · simpa using hm
    · simpa using hm
  have : spaceByte c = true := by
    simp only [spaceByte, Bool.or_eq_true, List.any_eq_true]
    exact Or.inr ⟨u, hu, by simpa using hm'⟩
  rw [hc] at this
  exact Bool.noConfusion this

theorem spaceWidth_le (rev : Bool) (a b : List Char) (c : Char) (hc : spaceByte c = false) :
    spaceWidth rev (a ++ c :: b) ≤ a.length := by
  have hascii : asciiSpace c = false := by
    cases h : asciiSpace c with
    | false => rfl
    | true => simp [spaceByte, h] at hc
  have hfind : ∀ s : List Char, s = a ++ c :: b →
      (match unicodeSpaces.find? (fun u => (if rev then u.reverse else u).isPrefixOf s) with
        | some u => u.length
        | none => 0) ≤ a.length := by
    intro s hs
    split
    · rename_i u hu
      have hmem : u ∈ unicodeSpaces := List.mem_of_find?_eq_some hu
      have hp := List.find?_some hu
      simp only [List.isPrefixOf_iff_prefix] at hp
      by_contra hgt
      have hlt : a.length < (if rev then u.reverse else u).length := by
        cases rev <;> simp <;> omega
      rw [hs] at hp
      exact spaceByte_not_mem c hc u hmem rev (prefix_mem_of_lt _ a b c hp hlt)
    · exact Nat.zero_le _
  cases a with
  | nil =>
    have := hfind (c :: b) rfl
    simp only [List.nil_append, spaceWidth, hascii, Bool.false_eq_true, if_false]
    exact this
  | cons x a' =>
    have := hfind (x :: (a' ++ c :: b)) rfl
    show spaceWidth rev (x :: (a' ++ c :: b)) ≤ _
    simp only [spaceWidth]
    split
    · simp
    · exact this

theorem dropSpaces_protect (rev : Bool) (n : Nat) (a b : List Char) (c : Char)
    (hc : spaceByte c = false) :
    ∃ a', a' <:+ a ∧ dropSpaces rev n (a ++ c :: b) = a' ++ c :: b := by
  induction n generalizing a with
  | zero => exact ⟨a, List.suffix_refl a, rfl⟩
  | succ n ih =>
    have hle := spaceWidth_le rev a b c hc
    simp only [dropSpaces]
    split
    · exact ⟨a, List.suffix_refl a, rfl⟩
    · rename_i k hk
      rw [List.drop_append_of_le_length hle]
      obtain ⟨a', h1, h2⟩ := ih (a.drop (spaceWidth rev (a ++ c :: b)))
      exact ⟨a', h1.trans (List.drop_suffix _ _), h2⟩

/-- Trimming a text that begins with `v`, whose first and last bytes belong to
no white-space rune, keeps `v` and an initial part of what follows it. -/
theorem stringsTrimSpace_keeps (v t : List Char)
    (hfirst : v.head?.map spaceByte = some false) (hlast : v.getLast?.map spaceByte = some false) :
    ∃ t', t' <+: t ∧ stringsTrimSpace (v ++ t) = v ++ t' := by
  cases v with
  | nil => simp at hfirst
  | cons f v0 =>
    have hf : spaceByte f = false := by simpa using hfirst
    rcases List.eq_nil_or_concat (f :: v0) with e | ⟨v1, e1, e⟩
    · exact absurd e (by simp)
    · rw [List.concat_eq_append] at e
      have he1 : spaceByte e1 = false := by
        rw [e] at hlast
        simpa using hlast
      obtain ⟨a0, ha0, hleft⟩ := dropSpaces_protect false ((f :: v0) ++ t).length [] (v0 ++ t) f hf
      have ha0' : a0 = [] := List.eq_nil_of_suffix_nil ha0
      subst ha0'
      have hleft' : dropSpaces false ((f :: v0) ++ t).length ((f :: v0) ++ t) = (f :: v0) ++ t := by
        simpa using hleft
      have hrev : ((f :: v0) ++ t).reverse = t.reverse ++ e1 :: v1.reverse := by
        rw [e]; simp
      obtain ⟨a', ha', hright⟩ :=
        dropSpaces_protect true ((f :: v0) ++ t).length t.reverse v1.reverse e1 he1
      refine ⟨a'.reverse, ?_, ?_⟩
      · have := List.reverse_prefix.mpr ha'
        simpa using this
      · unfold stringsTrimSpace
        simp only [hleft', hrev, hright]
        rw [e]
        simp

theorem stringsSplit_head_of_prefix (v t' rest : List Char) (hv : ' ' ∉ v)
    (ht : t' <+: ' ' :: rest) : (stringsSplit ' ' (v ++ t')).headD [] = v := by
  cases t' with
  | nil => rw [List.append_nil, stringsSplit_no_sep ' ' v hv]; rfl
  | cons d t'' =>
    obtain ⟨k, hk⟩ := ht
    simp only [List.cons_append, List.cons.injEq] at hk
    rw [hk.1, stringsSplit_append ' ' v t'' hv]
    rfl

/-- The token of a line that begins with `v` and a space is the token of `v`
alone. -/
theorem verbToken_before_space (v rest : List Char) (hv : ' ' ∉ v)
    (hfirst : v.head?.map spaceByte = some false) (hlast : v.getLast?.map spaceByte = some false) :
    verbToken (v ++ ' ' :: rest) = stringsToUpper v ∧ verbToken v = stringsToUpper v := by
  obtain ⟨t1, h1, e1⟩ := stringsTrimSpace_keeps v (' ' :: rest) hfirst hlast
  obtain ⟨t2, h2, e2⟩ := stringsTrimSpace_keeps v [] hfirst hlast
  have ht2 : t2 = [] := List.eq_nil_of_prefix_nil h2
  subst ht2
  constructor
  · unfold verbToken
    rw [e1, stringsSplit_head_of_prefix v t1 rest hv h1]
  · unfold verbToken
    rw [List.append_nil] at e2
    rw [e2, stringsSplit_no_sep ' ' v hv]
    rfl

theorem commandTable_keys_plain :
    ∀ v ∈ commandTable.map Prod.fst,
      ' ' ∉ v ∧ v.head?.map spaceByte = some false ∧ v.getLast?.map spaceByte = some false
        ∧ stringsToUpper v = v ∧ (commandTable.lookup v).isSome = true := by
  decide

/-- C15 fails as stated: a tab after the verb does not end the token.  The
line `MAIL`, tab, `FROM:<a@x.com>` is not dispatched as `MAIL` (the command
returned is the zero value, as for any unrecognized token), and `DATA`, tab,
`now` gets the reply 250 where `DATA` alone gets 354. -/
theorem replyCommand_tab_not_separator :
    (replyCommand ⟨[], [], []⟩ "MAIL\tFROM:<a@x.com>\r\n".toList).map Prod.snd
        = some CommandEhlo
    ∧ commandTable.lookup (verbToken "MAIL\tFROM:<a@x.com>\r\n".toList) = none
    ∧ (replyCommand ⟨[], [], []⟩ "MAIL".toList).map Prod.snd = some CommandMail
    ∧ replyCommand ⟨[], [], []⟩ "DATA\tnow\r\n".toList
        = some (⟨[], [], [Event.send "250 yes sir\n".toList]⟩, CommandEhlo)
    ∧ replyCommand ⟨[], [], []⟩ "DATA".toList
        = some (⟨[], [], [Event.send "354 fill \x27er up\n".toList]⟩, CommandData) := by
  refine ⟨by decide, by decide, by decide, by decide, by decide⟩

/-- C15, amended: `replyCommand` takes the token up to the first space.  For
every verb `v` of the table, every run `w` that begins with a space and every
text `a`, the line `v ++ w ++ a` gets the reply and the command of `v` alone,
and that command is the one the table gives for `v`. -/
theorem replyCommand_token_to_first_space (conn : Conn) (v w a : List Char)
    (hv : v ∈ commandTable.map Prod.fst) :
    replyCommand conn (v ++ (' ' :: w) ++ a) = replyCommand conn v
    ∧ (replyCommand conn v).map Prod.snd = commandTable.lookup v
    ∧ (commandTable.lookup v).isSome = true := by
  obtain ⟨h1, h2, h3, h4, h5⟩ := commandTable_keys_plain v hv
  obtain ⟨t1, t2⟩ := verbToken_before_space v (w ++ a) h1 h2 h3
  have e : v ++ (' ' :: w) ++ a = v ++ ' ' :: (w ++ a) := by simp
  refine ⟨?_, ?_, h5⟩
  · rw [e, replyCommand_eq, replyCommand_eq, t1, t2]
  · rw [replyCommand_spec]
    unfold verbOf
    rw [t2, h4]
    cases hl : commandTable.lookup v with
    | none => rw [hl] at h5; exact Bool.noConfusion h5
    | some c => rfl

/-- C15, amended, at `MAIL`, two spaces and a tab, `FROM:<a@x.com>`. -/
theorem replyCommand_token_to_first_space_witness :
    replyCommand ⟨[], [], []⟩ ("MAIL".toList ++ (' ' :: " \t".toList) ++ "FROM:<a@x.com>\r\n".toList)
        = replyCommand ⟨[], [], []⟩ "MAIL".toList
    ∧ (replyCommand ⟨[], [], []⟩ "MAIL".toList).map Prod.snd = commandTable.lookup "MAIL".toList
    ∧ (commandTable.lookup "MAIL".toList).isSome = true :=
  replyCommand_token_to_first_space ⟨[], [], []⟩ "MAIL".toList " \t".toList
    "FROM:<a@x.com>\r\n".toList (by decide)

/-! ## DataMode -/

theorem lookup_eq_none {β : Type} (k : List Char) (l : List (List Char × β))
    (h : ∀ p ∈ l, p.1 ≠ k) : l.lookup k = none := by
  induction l with
  | nil => rfl
  | cons p l ih =>
    obtain ⟨a, b⟩ := p
    have hne : k ≠ a := fun e => h (a, b) (by simp) e.symm
    have hb : (k == a) = false := by simpa using hne
    rw [List.lookup_cons, hb]
    exact ih (fun q hq => h q (by simp [hq]))

theorem stringsToUpper_dot (x : List Char) :
    (stringsToUpper ('.' :: x)).head? = some '.' := by
  cases x with
  | nil => decide
  | cons d r =>
    have h1 : ('.' == byte 0xC4) = false := by decide
    have h2 : ('.' == byte 0xC5) = false := by decide
    have h3 : upperByte '.' = '.' := by decide
    simp only [stringsToUpper, h1, h2, Bool.false_and, Bool.false_eq_true, if_false, h3,
      List.head?_cons]

/-- A line that begins with a dot has no verb of the table. -/
theorem verbOf_dot_line (l : List Char) (h : l.head? = some '.') : verbOf l = none := by
  cases l with
  | nil => simp at h
  | cons c t =>
    have hc : c = '.' := by simpa using h
    subst hc
    obtain ⟨t', _, e⟩ := stringsTrimSpace_keeps ['.'] t (by decide) (by decide)
    have hsplit : (stringsSplit ' ' ('.' :: t')).headD [] = '.' :: (stringsSplit ' ' t').headD [] := by
      have hne := stringsSplit_ne_nil ' ' t'
      cases hs : stringsSplit ' ' t' with
      | nil => exact absurd hs hne
      | cons piece pieces =>
        have hd : ('.' == ' ') = false := by decide
        simp only [stringsSplit, hd, Bool.false_eq_true, if_false, hs, List.headD_cons]
    have htok : (verbToken ('.' :: t)).head? = some '.' := by
      unfold verbToken
      have e' : stringsTrimSpace ('.' :: t) = '.' :: t' := by simpa using e
      rw [e', hsplit]
      exact stringsToUpper_dot _
    unfold verbOf
    apply lookup_eq_none
    intro p hp hpk
    have hkeys : ∀ q ∈ commandTable, q.1.head? ≠ some '.' := by decide
    exact hkeys p hp (by rw [hpk]; exact htok)

/-- C11: one pass of the loop in DataMode.  A line that does not begin with a
dot, whatever its text (a `QUIT` or `MAIL` line too), is appended to the
buffer, is answered by nothing, leaves both addresses and does not leave the
loop, and the session stays in DataMode.  A line that begins with a dot is
appended as well, is answered by 250 as an unrecognized command and puts the
session back into CommandMode. -/
theorem commandParseStep_dataMode (s : Session) (l : List Char) (ls : List (List Char))
    (hdata : s.readingData = true)
    (hl : linesRead s.rawData.length s.conn.pending [] = l :: ls) :
    ∃ buf rest, s.conn.pending = l ++ rest
      ∧ (l.head? ≠ some '.' →
          commandParseStep s = Step.next
            ⟨⟨s.conn.remoteAddr, rest, s.conn.events ++ l.map Event.recv⟩,
              s.output ++ l, buf, true, s.toAddr, s.fromAddr⟩)
      ∧ (l.head? = some '.' →
          commandParseStep s = Step.next
            ⟨⟨s.conn.remoteAddr, rest,
                s.conn.events ++ l.map Event.recv ++ [Event.send "250 yes sir\n".toList]⟩,
              s.output ++ l, buf, false, s.toAddr, s.fromAddr⟩) := by
  obtain ⟨buf, rest, _, hp, _, _, hstep⟩ := commandParseStep_line s l ls hl
  refine ⟨buf, rest, hp, ?_, ?_⟩
  · intro hnd
    have hmode : (s.readingData && !(l.head? == some '.')) = true := by
      rw [hdata]
      simpa using hnd
    rw [hstep, if_pos hmode]
  · intro hd
    have hmode : ¬ (s.readingData && !(l.head? == some '.')) = true := by
      rw [hdata, hd]
      simp
    have hv := verbOf_dot_line l hd
    have hreply : replyOf l = "250 yes sir".toList := by
      unfold replyOf; rw [hv]
    rw [hstep, if_neg hmode, hv, hreply]
    rfl

/-- C11 at a session in DataMode whose next line is `QUIT` (the line goes to
the buffer, nothing is written, the session stays in DataMode) and at the same
session two lines later, at the dot line (250 is written, the session is in
CommandMode again). -/
theorem commandParseStep_dataMode_witness :
    (∃ buf rest, commandParseStep dataModeSession = Step.next
        ⟨⟨examplePeer, rest, "QUIT\r\n".toList.map Event.recv⟩,
          "DATA\r\nQUIT\r\n".toList, buf, true, defaultAddr, defaultAddr⟩)
    ∧ (∃ buf rest, commandParseStep dotLineSession = Step.next
        ⟨⟨examplePeer, rest,
            ".\r\n".toList.map Event.recv ++ [Event.send "250 yes sir\n".toList]⟩,
          "DATA\r\nQUIT\r\nMAIL FROM:<x@y>\r\n.\r\n".toList, buf, false,
          defaultAddr, defaultAddr⟩) := by
  constructor
  · obtain ⟨buf, rest, _, h1, _⟩ := commandParseStep_dataMode dataModeSession "QUIT\r\n".toList
      ["MAIL FROM:<x@y>\r\n".toList, ".\r\n".toList] rfl (by decide)
    exact ⟨buf, rest, h1 (by decide)⟩
  · obtain ⟨buf, rest, _, _, h2⟩ := commandParseStep_dataMode dotLineSession ".\r\n".toList
      [] rfl (by decide)
    exact ⟨buf, rest, h2 (by decide)⟩

end EaseMail
